import Mathlib

/-!
Merkle root of a transaction list (`protocol/validation/merkle.go`).

A shallow embedding of the four functions of `merkle.go`
(`nextPowerOfTwo`, `hashMerkleBranches`, `buildMerkleTreeStore`,
`CalcMerkleRoot`) and theorems about them.

Conventions of the embedding:

* Go `int` is the 64-bit two's-complement integer; arithmetic that can leave
  its range is wrapped explicitly (`wrapInt`).
* `sha3.Sum256` is an external primitive; every definition that hashes takes
  it as the parameter `sha3 : List Byte → Hash`.
* A run-time panic of the Go program is an `Except.error`.
-/

namespace Merkle

/-! ## Data model -/

/-- A byte. -/
abbrev Byte := Fin 256

/-- The type `bc.Hash`, a `[32]byte` array. -/
structure Hash where
  bytes : List Byte
  size : bytes.length = 32
deriving DecidableEq

/-- Modelled from the spec: `bc.Tx` is declared in package `bc`, outside the
source under study; the only thing `merkle.go` uses of a transaction is the
result of `tx.WitnessHash()`, which the spec calls the opaque per-transaction
digest supplied by the caller. -/
structure Tx where
  WitnessHash : Hash
deriving DecidableEq

/-- The package variable `leafPrefix = []byte{0x00}`. -/
def leafPrefix : List Byte := [0x00]

/-- The package variable `interiorPrefix = []byte{0x01}`. -/
def interiorPrefix : List Byte := [0x01]

/-- The zero value `bc.Hash{}`: thirty-two zero bytes. -/
def zeroHash : Hash := ⟨List.replicate 32 0, by simp⟩

/-- The ways the Go code can stop with a run-time panic, plus the exhaustion of
the iteration budget of `foldLoop` (which never happens with the budget
`buildMerkleTreeStore` passes: `buildMerkleTreeStore_fuel`). -/
inductive Panic where
  | makesliceLenOutOfRange
  | indexOutOfRange
  | nilDereference
  | outOfFuel
deriving DecidableEq, Repr

/-! ## Machine integers and the float logarithm -/

/-- Reduction of a mathematical integer to the 64-bit two's-complement `int`. -/
def wrapInt (z : Int) : Int := (z + 2 ^ 63) % 2 ^ 64 - 2 ^ 63

/-- Halve `n` until it is below two, counting the steps; the first argument
bounds the number of steps. -/
def log2Fuel : Nat → Nat → Nat
  | 0, _ => 0
  | fuel + 1, n => if n < 2 then 0 else log2Fuel fuel (n / 2) + 1

/-- The floor of the binary logarithm of `n` (and `0` for `n = 0`). -/
def floorLog2 (n : Nat) : Nat := log2Fuel n n

/-- The conversion `float64(n)` of a non-negative `int`: `n` rounded to 53
significant bits, ties to even (IEEE 754 binary64). The result is an integer,
returned as such. -/
def float64 (n : Nat) : Nat :=
  let bits := floorLog2 n + 1
  if bits ≤ 53 then n
  else
    let sh := bits - 53
    let q := n / 2 ^ sh
    let r := n % 2 ^ sh
    let half := 2 ^ (sh - 1)
    let q1 := if half < r ∨ (r = half ∧ q % 2 = 1) then q + 1 else q
    q1 * 2 ^ sh

/-- The expression `uint(math.Log2(x))` for a float `x` whose value is the
positive integer `x`. `math.Log2` belongs to the Go standard library and
computes in floating point. Two facts about it are built in: it is exact on
powers of two (the library special-cases them), and for `x < 2^47` the rounding
error is too small to reach the next integer, so the truncation is the floor of
the binary logarithm. For every other argument the result is whatever the
parameter `fl` says. -/
def uintLog2 (fl : Nat → Nat) (x : Nat) : Nat :=
  if x < 2 ^ 47 ∨ 2 ^ floorLog2 x = x then floorLog2 x else fl x

/-- The function `nextPowerOfTwo(n int) int`, for `n ≥ 0`.
`n - 1` is taken in 64-bit two's complement, so that `0 & (0 - 1) = 0`;
`1 << exponent` is reduced to the range of `int`. -/
def nextPowerOfTwo (fl : Nat → Nat) (n : Nat) : Int :=
  if n &&& ((n + 2 ^ 64 - 1) % 2 ^ 64) = 0 then
    (n : Int)
  else
    let exponent := uintLog2 fl (float64 n) + 1
    wrapInt (2 ^ exponent)

/-! ## Hashing -/

/-- The byte string `append(leafPrefix, witHash[:]...)` hashed for a leaf. -/
def leafInput (d : Hash) : List Byte := leafPrefix ++ d.bytes

/-- The leaf hash computed in the first loop of `buildMerkleTreeStore`:
`sha3.Sum256(append(leafPrefix, witHash[:]...))`. -/
def leafHash (sha3 : List Byte → Hash) (tx : Tx) : Hash :=
  sha3 (leafInput tx.WitnessHash)

/-- The bytes written to the hasher by `hashMerkleBranches`: `interiorPrefix`,
then `left[:]`, then `right[:]`. -/
def interiorInput (left right : Hash) : List Byte :=
  interiorPrefix ++ left.bytes ++ right.bytes

/-- The function `hashMerkleBranches(left, right)`. -/
def hashMerkleBranches (sha3 : List Byte → Hash) (left right : Hash) : Hash :=
  sha3 (interiorInput left right)

/-! ## The tree store -/

/-- The loop `for i, tx := range transactions { ...; merkles[i] = &hash }`,
started at index `i`. -/
def leafLoop (sha3 : List Byte → Hash) :
    List Tx → Nat → List (Option Hash) → Except Panic (List (Option Hash))
  | [], _, merkles => .ok merkles
  | tx :: rest, i, merkles =>
    if i < merkles.length then
      leafLoop sha3 rest (i + 1) (merkles.set i (some (leafHash sha3 tx)))
    else .error .indexOutOfRange

/-- The loop `for i := 0; i < arraySize-1; i += 2 { switch ... ; offset++ }`
of `buildMerkleTreeStore`, from the state `(i, offset, merkles)`. The first
argument bounds the number of iterations still allowed. -/
def foldLoop (sha3 : List Byte → Hash) (arraySize : Nat) :
    Nat → Nat → Nat → List (Option Hash) → Except Panic (List (Option Hash))
  | 0, i, _, merkles =>
    if i + 1 < arraySize then .error .outOfFuel else .ok merkles
  | fuel + 1, i, offset, merkles =>
    if i + 1 < arraySize then
      match merkles[i]? with
      | none => .error .indexOutOfRange
      | some none =>
        if offset < merkles.length then
          foldLoop sha3 arraySize fuel (i + 2) (offset + 1) (merkles.set offset none)
        else .error .indexOutOfRange
      | some (some left) =>
        match merkles[i + 1]? with
        | none => .error .indexOutOfRange
        | some none =>
          if offset < merkles.length then
            foldLoop sha3 arraySize fuel (i + 2) (offset + 1)
              (merkles.set offset (some left))
          else .error .indexOutOfRange
        | some (some right) =>
          if offset < merkles.length then
            foldLoop sha3 arraySize fuel (i + 2) (offset + 1)
              (merkles.set offset (some (hashMerkleBranches sha3 left right)))
          else .error .indexOutOfRange
    else .ok merkles

/-- The function `buildMerkleTreeStore`. `make` panics on a negative length.
Past that point `arraySize ≥ 0`, which forces `nextPoT ≥ 1`, so the loop
variables are natural numbers; they stay below `arraySize` and cannot wrap. -/
def buildMerkleTreeStore (fl : Nat → Nat) (sha3 : List Byte → Hash)
    (transactions : List Tx) : Except Panic (List (Option Hash)) :=
  let nextPoT := nextPowerOfTwo fl transactions.length
  let arraySize := wrapInt (wrapInt (nextPoT * 2) - 1)
  if arraySize < 0 then .error .makesliceLenOutOfRange
  else
    let merkles : List (Option Hash) := List.replicate arraySize.toNat none
    match leafLoop sha3 transactions 0 merkles with
    | .error e => .error e
    | .ok merkles =>
      foldLoop sha3 arraySize.toNat arraySize.toNat 0 nextPoT.toNat merkles

/-- The function `CalcMerkleRoot`. -/
def CalcMerkleRoot (fl : Nat → Nat) (sha3 : List Byte → Hash)
    (transactions : List Tx) : Except Panic Hash :=
  if transactions.length = 0 then .ok zeroHash
  else
    match buildMerkleTreeStore fl sha3 transactions with
    | .error e => .error e
    | .ok tree =>
      if tree.length = 0 then .error .indexOutOfRange
      else
        match tree[tree.length - 1]? with
        | none => .error .indexOutOfRange
        | some none => .error .nilDereference
        | some (some root) => .ok root

/-- A stand-in for `sha3.Sum256` used to run the definitions: the first byte
of the input, the sum of its bytes, then its last 30 bytes, zero-padded to 32
bytes. -/
def toySum256 (bs : List Byte) : Hash :=
  ⟨((bs.take 1 ++ [bs.sum] ++ bs.drop (bs.length - 30)) ++ List.replicate 32 0).take 32, by
    simp [List.length_take]; omega⟩

/-- A 32-byte digest whose last byte is `b` and whose other bytes are zero. -/
def digestOf (b : Byte) : Hash := ⟨List.replicate 31 0 ++ [b], by simp⟩

/-- A degenerate stand-in for `sha3.Sum256` under which all inputs collide. -/
def constSum256 (_ : List Byte) : Hash := zeroHash

/-- A transaction whose digest is `digestOf b`. -/
def sampleTx (b : Byte) : Tx := ⟨digestOf b⟩

/-! ## The instrumented store builder

The same two loops, carrying along the list of byte strings handed to
`sha3`, in the order of the calls. -/

/-- The loop `leafLoop`, recording each hashed byte string in `log`. -/
def leafLoopLog (sha3 : List Byte → Hash) :
    List Tx → Nat → List (Option Hash) → List (List Byte) →
      Except Panic (List (Option Hash) × List (List Byte))
  | [], _, merkles, log => .ok (merkles, log)
  | tx :: rest, i, merkles, log =>
    if i < merkles.length then
      leafLoopLog sha3 rest (i + 1) (merkles.set i (some (leafHash sha3 tx)))
        (log ++ [leafInput tx.WitnessHash])
    else .error .indexOutOfRange

/-- The loop `foldLoop`, recording each hashed byte string in `log`. -/
def foldLoopLog (sha3 : List Byte → Hash) (arraySize : Nat) :
    Nat → Nat → Nat → List (Option Hash) → List (List Byte) →
      Except Panic (List (Option Hash) × List (List Byte))
  | 0, i, _, merkles, log =>
    if i + 1 < arraySize then .error .outOfFuel else .ok (merkles, log)
  | fuel + 1, i, offset, merkles, log =>
    if i + 1 < arraySize then
      match merkles[i]? with
      | none => .error .indexOutOfRange
      | some none =>
        if offset < merkles.length then
          foldLoopLog sha3 arraySize fuel (i + 2) (offset + 1) (merkles.set offset none) log
        else .error .indexOutOfRange
      | some (some left) =>
        match merkles[i + 1]? with
        | none => .error .indexOutOfRange
        | some none =>
          if offset < merkles.length then
            foldLoopLog sha3 arraySize fuel (i + 2) (offset + 1)
              (merkles.set offset (some left)) log
          else .error .indexOutOfRange
        | some (some right) =>
          if offset < merkles.length then
            foldLoopLog sha3 arraySize fuel (i + 2) (offset + 1)
              (merkles.set offset (some (hashMerkleBranches sha3 left right)))
              (log ++ [interiorInput left right])
          else .error .indexOutOfRange
    else .ok (merkles, log)

/-- The function `buildMerkleTreeStore`, returning the store together with
the byte strings it handed to `sha3`. -/
def buildMerkleTreeStoreLog (fl : Nat → Nat) (sha3 : List Byte → Hash)
    (transactions : List Tx) :
    Except Panic (List (Option Hash) × List (List Byte)) :=
  let nextPoT := nextPowerOfTwo fl transactions.length
  let arraySize := wrapInt (wrapInt (nextPoT * 2) - 1)
  if arraySize < 0 then .error .makesliceLenOutOfRange
  else
    let merkles : List (Option Hash) := List.replicate arraySize.toNat none
    match leafLoopLog sha3 transactions 0 merkles [] with
    | .error e => .error e
    | .ok (merkles, log) =>
      foldLoopLog sha3 arraySize.toNat arraySize.toNat 0 nextPoT.toNat merkles log

/-- The byte strings handed to `sha3` while `CalcMerkleRoot` runs on
`transactions` (none when the list is empty, or when the builder panics). -/
def sha3Inputs (fl : Nat → Nat) (sha3 : List Byte → Hash)
    (transactions : List Tx) : List (List Byte) :=
  if transactions.length = 0 then []
  else
    match buildMerkleTreeStoreLog fl sha3 transactions with
    | .error _ => []
    | .ok (_, log) => log

/-! ## Auxiliary notions used in statements -/

/-- The value `n` is a power of two. -/
def IsPowerOfTwo (z : Int) : Prop := ∃ k : Nat, z = 2 ^ k

/-- The function `sha3` has no collision inside the list `S`: two members
of `S` with the same hash are the same byte string. -/
def NoCollisionOn (sha3 : List Byte → Hash) (S : List (List Byte)) : Prop :=
  ∀ x ∈ S, ∀ y ∈ S, sha3 x = sha3 y → x = y

instance (sha3 : List Byte → Hash) (S : List (List Byte)) :
    Decidable (NoCollisionOn sha3 S) := by
  unfold NoCollisionOn; infer_instance

/-! ## The shape of the store

The functions below describe the store level by level. They are not taken
from the source; the lemmas further down prove that the loops of
`buildMerkleTreeStore` compute exactly them. -/

/-- The parent slot the `switch` of the second loop writes for the pair
`(left, right)`. -/
def parentOf (sha3 : List Byte → Hash) : Option Hash → Option Hash → Option Hash
  | none, _ => none
  | some left, none => some left
  | some left, some right => some (hashMerkleBranches sha3 left right)

/-- One level of parents above a level of slots, pair by pair. -/
def pairUp (sha3 : List Byte → Hash) : List (Option Hash) → List (Option Hash)
  | a :: b :: rest => parentOf sha3 a b :: pairUp sha3 rest
  | _ => []

/-- A level of `2^k` slots followed by all the `k` levels above it. -/
def treeLevels (sha3 : List Byte → Hash) : Nat → List (Option Hash) → List (Option Hash)
  | 0, level => level
  | k + 1, level => level ++ treeLevels sha3 k (pairUp sha3 level)

/-- The interior-node byte strings hashed while pairing up a list of slots:
one for each pair whose two slots are present. -/
def pairInputs : List (Option Hash) → List (List Byte)
  | some left :: some right :: rest => interiorInput left right :: pairInputs rest
  | _ :: _ :: rest => pairInputs rest
  | _ => []

/-- One level of parents above a level of present hashes: adjacent pairs are
hashed, an unpaired last hash is carried up as it is. -/
def carryUp (sha3 : List Byte → Hash) : List Hash → List Hash
  | a :: b :: rest => hashMerkleBranches sha3 a b :: carryUp sha3 rest
  | [a] => [a]
  | [] => []

/-- The interior-node byte strings hashed by `carryUp`. -/
def carryInputs : List Hash → List (List Byte)
  | a :: b :: rest => interiorInput a b :: carryInputs rest
  | _ => []

/-- The leaf level of the store for `transactions`, padded to `size` slots. -/
def leafLevel (sha3 : List Byte → Hash) (transactions : List Tx) (size : Nat) :
    List (Option Hash) :=
  transactions.map (fun tx => some (leafHash sha3 tx)) ++
    List.replicate (size - transactions.length) none

/-- A level of present hashes `xs`, padded with absent slots to `size` slots. -/
def slots (xs : List Hash) (size : Nat) : List (Option Hash) :=
  xs.map some ++ List.replicate (size - xs.length) none

/-- The interior-node byte strings hashed on the first `k` levels above the
level of present hashes `xs`. -/
def levelInputs (sha3 : List Byte → Hash) : Nat → List Hash → List (List Byte)
  | 0, _ => []
  | k + 1, xs => carryInputs xs ++ levelInputs sha3 k (carryUp sha3 xs)

/-- The largest power of two strictly smaller than `n`, for `n ≥ 2`. -/
def largestPowerOfTwoBelow (n : Nat) : Nat := 2 ^ floorLog2 (n - 1)

/-- The recursive merkle tree hash of a list of digests, as the claim words
it: `MTH([d]) = H(0x00 || d)` and, for a list `L` of length `n ≥ 2`,
`MTH(L) = H(0x01 || MTH(L[0:k]) || MTH(L[k:n]))` with `k` the largest power
of two strictly smaller than `n`. The first argument bounds the depth of the
recursion. -/
def mthFuel (sha3 : List Byte → Hash) : Nat → List Hash → Hash
  | _, [] => zeroHash
  | _, [d] => sha3 (0x00 :: d.bytes)
  | 0, _ :: _ :: _ => zeroHash
  | fuel + 1, d :: e :: rest =>
    let k := largestPowerOfTwoBelow (rest.length + 2)
    sha3 (0x01 :: ((mthFuel sha3 fuel ((d :: e :: rest).take k)).bytes ++
      (mthFuel sha3 fuel ((d :: e :: rest).drop k)).bytes))

/-- The recursive merkle tree hash `MTH(L)` of a non-empty list of digests. -/
def MTH (sha3 : List Byte → Hash) (L : List Hash) : Hash := mthFuel sha3 L.length L

/-- The byte strings hashed in the recursion of `mthFuel`. -/
def mthInputsFuel (sha3 : List Byte → Hash) : Nat → List Hash → List (List Byte)
  | _, [] => []
  | _, [d] => [0x00 :: d.bytes]
  | 0, _ :: _ :: _ => []
  | fuel + 1, d :: e :: rest =>
    let k := largestPowerOfTwoBelow (rest.length + 2)
    mthInputsFuel sha3 fuel ((d :: e :: rest).take k) ++
      mthInputsFuel sha3 fuel ((d :: e :: rest).drop k) ++
      [0x01 :: ((mthFuel sha3 fuel ((d :: e :: rest).take k)).bytes ++
        (mthFuel sha3 fuel ((d :: e :: rest).drop k)).bytes)]

/-- The byte strings hashed in the recursion of `MTH`. -/
def mthInputs (sha3 : List Byte → Hash) (L : List Hash) : List (List Byte) :=
  mthInputsFuel sha3 L.length L

/-- The index `s_l = 2P - 2P/2^l` at which level `l` of a store of padded
size `P` starts. -/
def levelStart (P l : Nat) : Nat := 2 * P - 2 * P / 2 ^ l

/-- The width `P/2^l` of level `l` of a store of padded size `P`. -/
def levelWidth (P l : Nat) : Nat := P / 2 ^ l

/-- Double `p` until it is at least `n`; the first argument bounds the number
of doublings. -/
def doubleUntil : Nat → Nat → Nat → Nat
  | 0, p, _ => p
  | fuel + 1, p, n => if n ≤ p then p else doubleUntil fuel (2 * p) n

/-- The smallest power of two that is at least `n`, with `0` for `n = 0`:
the value the spec asks of the capacity planner. -/
def smallestPowerOfTwoGE (n : Nat) : Nat := if n = 0 then 0 else doubleUntil n 1 n

/-- The length `n` is one for which `nextPowerOfTwo` returns the correct
power of two (and `n` fits the Go type `int`). -/
def PlannerExact (fl : Nat → Nat) (n : Nat) : Prop :=
  n < 2 ^ 63 ∧ nextPowerOfTwo fl n = (smallestPowerOfTwoGE n : Int)

instance (fl : Nat → Nat) (n : Nat) : Decidable (PlannerExact fl n) := by
  unfold PlannerExact; infer_instance

/-! ## Lemmas -/

theorem leafLoop_spec (sha3 : List Byte → Hash) (txs : List Tx) :
    ∀ (pre : List (Option Hash)) (r : Nat), txs.length ≤ r →
      leafLoop sha3 txs pre.length (pre ++ List.replicate r none) =
        .ok (pre ++ txs.map (fun t => some (leafHash sha3 t)) ++
              List.replicate (r - txs.length) none) := by
  induction txs with
  | nil => intro pre r _; simp [leafLoop]
  | cons t rest ih =>
    intro pre r hr
    obtain ⟨r', rfl⟩ : ∃ r', r = r' + 1 := ⟨r - 1, by simp at hr; omega⟩
    have hlen : pre.length < (pre ++ List.replicate (r' + 1) none).length := by simp
    rw [leafLoop, if_pos hlen]
    have hset : (pre ++ List.replicate (r' + 1) (none : Option Hash)).set pre.length
        (some (leafHash sha3 t)) = (pre ++ [some (leafHash sha3 t)]) ++ List.replicate r' none := by
      simp [List.replicate_succ, List.set_append_right]
    rw [hset]
    have := ih (pre ++ [some (leafHash sha3 t)]) r' (by simp at hr; omega)
    simp only [List.length_append, List.length_singleton] at this
    rw [this]
    simp

theorem pairUp_length (sha3 : List Byte → Hash) :
    ∀ l : List (Option Hash), (pairUp sha3 l).length = l.length / 2
  | [] => by simp [pairUp]
  | [_] => by simp [pairUp]
  | a :: b :: rest => by
    simp [pairUp, pairUp_length sha3 rest]; omega

theorem pairUp_getElem? (sha3 : List Byte → Hash) :
    ∀ (l : List (Option Hash)) (j : Nat) (a b : Option Hash),
      l[2 * j]? = some a → l[2 * j + 1]? = some b →
        (pairUp sha3 l)[j]? = some (parentOf sha3 a b)
  | [], j, a, b => by simp
  | [_], j, a, b => by
    intro _ h
    simp at h
  | x :: y :: rest, 0, a, b => by
    intro h1 h2
    simp at h1 h2
    simp [pairUp, h1, h2]
  | x :: y :: rest, j + 1, a, b => by
    intro h1 h2
    have e1 : 2 * (j + 1) = 2 * j + 1 + 1 := by ring
    have e2 : 2 * (j + 1) + 1 = 2 * j + 1 + 1 + 1 := by ring
    rw [e1] at h1; rw [e2] at h2
    simp only [List.getElem?_cons_succ] at h1 h2
    simp only [pairUp, List.getElem?_cons_succ]
    exact pairUp_getElem? sha3 rest j a b h1 h2

theorem treeLevels_length (sha3 : List Byte → Hash) :
    ∀ (k : Nat) (l : List (Option Hash)), l.length = 2 ^ k →
      (treeLevels sha3 k l).length = 2 * 2 ^ k - 1
  | 0, l, h => by simp [treeLevels, h]
  | k + 1, l, h => by
    have hp : (pairUp sha3 l).length = 2 ^ k := by
      rw [pairUp_length, h, pow_succ]; simp
    simp only [treeLevels, List.length_append, treeLevels_length sha3 k _ hp, h]
    have : 0 < 2 ^ k := Nat.two_pow_pos k
    rw [pow_succ]; omega

theorem treeLevels_head (sha3 : List Byte → Hash) (k : Nat) (l : List (Option Hash))
    (idx : Nat) (h : idx < l.length) : (treeLevels sha3 k l)[idx]? = l[idx]? := by
  cases k with
  | zero => simp [treeLevels]
  | succ k => simp [treeLevels, List.getElem?_append_left h]

theorem treeLevels_parent (sha3 : List Byte → Hash) :
    ∀ (k : Nat) (l : List (Option Hash)), l.length = 2 ^ k → ∀ j, j + 1 < 2 ^ k →
      ∃ a b, (treeLevels sha3 k l)[2 * j]? = some a ∧
        (treeLevels sha3 k l)[2 * j + 1]? = some b ∧
        (treeLevels sha3 k l)[2 ^ k + j]? = some (parentOf sha3 a b)
  | 0, l, h, j, hj => by simp at hj
  | k + 1, l, h, j, hj => by
    have hp : (pairUp sha3 l).length = 2 ^ k := by
      rw [pairUp_length, h, pow_succ]; simp
    have hpos : 0 < 2 ^ k := Nat.two_pow_pos k
    have h2 : 2 ^ (k + 1) = 2 * 2 ^ k := by rw [pow_succ]; ring
    rw [h2] at hj
    have hidx : ∀ i, (treeLevels sha3 (k + 1) l)[2 ^ (k + 1) + i]? =
        (treeLevels sha3 k (pairUp sha3 l))[i]? := by
      intro i
      simp only [treeLevels]
      rw [List.getElem?_append_right (by omega)]
      congr 1; omega
    by_cases hlt : j < 2 ^ k
    · -- both children lie in the bottom level
      have ha : 2 * j < l.length := by omega
      have hb : 2 * j + 1 < l.length := by omega
      refine ⟨l[2 * j], l[2 * j + 1], ?_, ?_, ?_⟩
      · rw [treeLevels_head sha3 _ _ _ ha]; exact List.getElem?_eq_getElem ha
      · rw [treeLevels_head sha3 _ _ _ hb]; exact List.getElem?_eq_getElem hb
      · rw [hidx, treeLevels_head sha3 _ _ _ (by omega)]
        exact pairUp_getElem? sha3 l j _ _ (List.getElem?_eq_getElem ha)
          (List.getElem?_eq_getElem hb)
    · -- both children lie above the bottom level
      obtain ⟨j', rfl⟩ : ∃ j', j = 2 ^ k + j' := ⟨j - 2 ^ k, by omega⟩
      obtain ⟨a, b, h1, h2', h3⟩ := treeLevels_parent sha3 k (pairUp sha3 l) hp j' (by omega)
      refine ⟨a, b, ?_, ?_, ?_⟩
      · have : 2 * (2 ^ k + j') = 2 ^ (k + 1) + 2 * j' := by rw [h2]; ring
        rw [this, hidx]; exact h1
      · have : 2 * (2 ^ k + j') + 1 = 2 ^ (k + 1) + (2 * j' + 1) := by rw [h2]; ring
        rw [this, hidx]; exact h2'
      · rw [hidx]; exact h3

theorem pairInputs_drop (T : List (Option Hash)) (i : Nat) (a b : Option Hash)
    (ha : T[i]? = some a) (hb : T[i + 1]? = some b) :
    pairInputs (T.drop i) = pairInputs [a, b] ++ pairInputs (T.drop (i + 2)) := by
  have hi : i < T.length := (List.getElem?_eq_some.mp ha).1
  have hi1 : i + 1 < T.length := (List.getElem?_eq_some.mp hb).1
  have e1 : T.drop i = a :: T.drop (i + 1) := by
    rw [List.drop_eq_getElem_cons hi]
    congr 1
    have := List.getElem?_eq_getElem hi
    rw [ha] at this; exact (Option.some.inj this).symm
  have e2 : T.drop (i + 1) = b :: T.drop (i + 2) := by
    rw [List.drop_eq_getElem_cons hi1]
    congr 1
    have := List.getElem?_eq_getElem hi1
    rw [hb] at this; exact (Option.some.inj this).symm
  rw [e1, e2]
  cases a <;> cases b <;> simp [pairInputs]

theorem foldLoopLog_spec (sha3 : List Byte → Hash) (T : List (Option Hash)) (P : Nat)
    (hT : T.length = 2 * P - 1)
    (hrec : ∀ j, j + 1 < P → ∃ a b, T[2 * j]? = some a ∧ T[2 * j + 1]? = some b ∧
      T[P + j]? = some (parentOf sha3 a b)) :
    ∀ (fuel j : Nat) (m : List (Option Hash)) (log : List (List Byte)),
      j + 1 ≤ P → P - 1 - j ≤ fuel → m.length = 2 * P - 1 →
      (∀ idx, idx < P + j → m[idx]? = T[idx]?) →
      foldLoopLog sha3 (2 * P - 1) fuel (2 * j) (P + j) m log =
        .ok (T, log ++ pairInputs (T.drop (2 * j))) := by
  intro fuel
  induction fuel with
  | zero =>
    intro j m log hj hfuel hm hagree
    have hjP : j + 1 = P := by omega
    have hcond : ¬ (2 * j + 1 < 2 * P - 1) := by omega
    rw [foldLoopLog, if_neg hcond]
    have hmT : m = T := by
      apply List.ext_getElem?
      intro idx
      by_cases h : idx < P + j
      · exact hagree idx h
      · rw [List.getElem?_eq_none (by omega), List.getElem?_eq_none (by omega)]
    have hdrop : pairInputs (T.drop (2 * j)) = [] := by
      have hl : (T.drop (2 * j)).length = 1 := by simp [hT]; omega
      match hd : T.drop (2 * j), hl with
      | [x], _ => simp [pairInputs]
    rw [hmT, hdrop]; simp
  | succ fuel ih =>
    intro j m log hj hfuel hm hagree
    by_cases hcond : 2 * j + 1 < 2 * P - 1
    · have hjP : j + 1 < P := by omega
      obtain ⟨a, b, ha, hb, hpar⟩ := hrec j hjP
      have hma : m[2 * j]? = some a := by rw [hagree _ (by omega)]; exact ha
      have hmb : m[2 * j + 1]? = some b := by rw [hagree _ (by omega)]; exact hb
      have hoff : P + j < m.length := by omega
      have hnext : ∀ v, v = parentOf sha3 a b →
          ∀ idx, idx < P + (j + 1) → (m.set (P + j) v)[idx]? = T[idx]? := by
        intro v hv idx hidx
        by_cases he : idx = P + j
        · subst he
          rw [List.getElem?_set_self hoff, hpar, hv]
        · rw [List.getElem?_set_ne (by omega)]
          exact hagree idx (by omega)
      have hstep := fun v hv log' => ih (j + 1) (m.set (P + j) v) log' (by omega) (by omega)
        (by simp [hm]) (hnext v hv)
      have e2 : 2 * (j + 1) = 2 * j + 2 := by ring
      have e3 : P + (j + 1) = P + j + 1 := by ring
      rw [e2, e3] at hstep
      rw [pairInputs_drop T (2 * j) a b ha hb]
      rw [foldLoopLog, if_pos hcond]
      cases a with
      | none =>
        simp only [hma, if_pos hoff]
        rw [hstep none (by simp [parentOf])]
        cases b <;> simp [pairInputs]
      | some l =>
        cases b with
        | none =>
          simp only [hma, hmb, if_pos hoff]
          rw [hstep (some l) (by simp [parentOf])]
          simp [pairInputs]
        | some r =>
          simp only [hma, hmb, if_pos hoff]
          rw [hstep _ (by simp [parentOf])]
          simp [pairInputs]
    · have hjP : j + 1 = P := by omega
      rw [foldLoopLog, if_neg hcond]
      have hmT : m = T := by
        apply List.ext_getElem?
        intro idx
        by_cases h : idx < P + j
        · exact hagree idx h
        · rw [List.getElem?_eq_none (by omega), List.getElem?_eq_none (by omega)]
      have hdrop : pairInputs (T.drop (2 * j)) = [] := by
        have hl : (T.drop (2 * j)).length = 1 := by simp [hT]; omega
        match hd : T.drop (2 * j), hl with
        | [x], _ => simp [pairInputs]
      rw [hmT, hdrop]; simp

theorem foldLoopLog_fst (sha3 : List Byte → Hash) (n : Nat) :
    ∀ (fuel i o : Nat) (m : List (Option Hash)) (log : List (List Byte)),
      Except.map Prod.fst (foldLoopLog sha3 n fuel i o m log) = foldLoop sha3 n fuel i o m := by
  intro fuel
  induction fuel with
  | zero =>
    intro i o m log
    simp only [foldLoopLog, foldLoop]
    split <;> rfl
  | succ fuel ih =>
    intro i o m log
    simp only [foldLoopLog, foldLoop]
    split
    · cases h1 : m[i]? with
      | none => rfl
      | some a =>
        cases a with
        | none =>
          simp only []
          split
          · exact ih _ _ _ _
          · rfl
        | some l =>
          simp only []
          cases h2 : m[i + 1]? with
          | none => rfl
          | some b =>
            cases b with
            | none =>
              simp only []
              split
              · exact ih _ _ _ _
              · rfl
            | some r =>
              simp only []
              split
              · exact ih _ _ _ _
              · rfl
    · rfl

theorem leafLoopLog_fst (sha3 : List Byte → Hash) :
    ∀ (txs : List Tx) (i : Nat) (m : List (Option Hash)) (log : List (List Byte)),
      Except.map Prod.fst (leafLoopLog sha3 txs i m log) = leafLoop sha3 txs i m
  | [], i, m, log => rfl
  | t :: rest, i, m, log => by
    simp only [leafLoopLog, leafLoop]
    split
    · exact leafLoopLog_fst sha3 rest _ _ _
    · rfl

theorem buildMerkleTreeStoreLog_fst (fl : Nat → Nat) (sha3 : List Byte → Hash)
    (txs : List Tx) :
    Except.map Prod.fst (buildMerkleTreeStoreLog fl sha3 txs) =
      buildMerkleTreeStore fl sha3 txs := by
  simp only [buildMerkleTreeStoreLog, buildMerkleTreeStore]
  split
  · rfl
  · rename_i hsz
    have h1 := leafLoopLog_fst sha3 txs 0
      (List.replicate (wrapInt (wrapInt (nextPowerOfTwo fl txs.length * 2) - 1)).toNat none) []
    cases h2 : leafLoopLog sha3 txs 0
      (List.replicate (wrapInt (wrapInt (nextPowerOfTwo fl txs.length * 2) - 1)).toNat none) [] with
    | error e =>
      rw [h2] at h1
      simp only [Except.map] at h1
      rw [← h1]; rfl
    | ok r =>
      obtain ⟨m, log⟩ := r
      rw [h2] at h1
      simp only [Except.map] at h1
      rw [← h1]
      exact foldLoopLog_fst sha3 _ _ _ _ _ _

theorem leafLoopLog_spec (sha3 : List Byte → Hash) (txs : List Tx) :
    ∀ (pre : List (Option Hash)) (r : Nat) (log : List (List Byte)), txs.length ≤ r →
      leafLoopLog sha3 txs pre.length (pre ++ List.replicate r none) log =
        .ok (pre ++ txs.map (fun t => some (leafHash sha3 t)) ++
              List.replicate (r - txs.length) none,
             log ++ txs.map (fun t => leafInput t.WitnessHash)) := by
  induction txs with
  | nil => intro pre r log _; simp [leafLoopLog]
  | cons t rest ih =>
    intro pre r log hr
    obtain ⟨r', rfl⟩ : ∃ r', r = r' + 1 := ⟨r - 1, by simp at hr; omega⟩
    have hlen : pre.length < (pre ++ List.replicate (r' + 1) none).length := by simp
    rw [leafLoopLog, if_pos hlen]
    have hset : (pre ++ List.replicate (r' + 1) (none : Option Hash)).set pre.length
        (some (leafHash sha3 t)) = (pre ++ [some (leafHash sha3 t)]) ++ List.replicate r' none := by
      simp [List.replicate_succ, List.set_append_right]
    rw [hset]
    have := ih (pre ++ [some (leafHash sha3 t)]) r' (log ++ [leafInput t.WitnessHash])
      (by simp at hr; omega)
    simp only [List.length_append, List.length_singleton] at this
    rw [this]
    simp

theorem arraySize_eq (P : Nat) (h1 : 1 ≤ P) (h2 : P ≤ 2 ^ 62) :
    wrapInt (wrapInt ((P : Int) * 2) - 1) = ((2 * P - 1 : Nat) : Int) := by
  unfold wrapInt
  norm_num at h2 ⊢
  omega

theorem leafLevel_length (sha3 : List Byte → Hash) (txs : List Tx) (size : Nat)
    (h : txs.length ≤ size) : (leafLevel sha3 txs size).length = size := by
  simp [leafLevel]; omega

theorem buildMerkleTreeStoreLog_spec (fl : Nat → Nat) (sha3 : List Byte → Hash)
    (txs : List Tx) (k : Nat) (hk : k ≤ 62)
    (hP : nextPowerOfTwo fl txs.length = ((2 ^ k : Nat) : Int))
    (hlen : txs.length ≤ 2 ^ k) :
    buildMerkleTreeStoreLog fl sha3 txs =
      .ok (treeLevels sha3 k (leafLevel sha3 txs (2 ^ k)),
           txs.map (fun t => leafInput t.WitnessHash) ++
             pairInputs (treeLevels sha3 k (leafLevel sha3 txs (2 ^ k)))) := by
  have hpos : 1 ≤ 2 ^ k := Nat.two_pow_pos k
  have hle : 2 ^ k ≤ 2 ^ 62 := Nat.pow_le_pow_right (by norm_num) hk
  have hsz := arraySize_eq (2 ^ k) hpos hle
  have hll := leafLevel_length sha3 txs (2 ^ k) hlen
  unfold buildMerkleTreeStoreLog
  simp only [hP, hsz]
  rw [if_neg (by omega)]
  simp only [Int.toNat_ofNat]
  have hleaf := leafLoopLog_spec sha3 txs [] (2 * 2 ^ k - 1) [] (by omega)
  simp only [List.length_nil, List.nil_append] at hleaf
  rw [hleaf]
  simp only []
  set T := treeLevels sha3 k (leafLevel sha3 txs (2 ^ k)) with hTdef
  have hTlen : T.length = 2 * 2 ^ k - 1 := treeLevels_length sha3 k _ hll
  have hrec := treeLevels_parent sha3 k _ hll
  have hmain := foldLoopLog_spec sha3 T (2 ^ k) hTlen hrec (2 * 2 ^ k - 1) 0
    (List.map (fun t => some (leafHash sha3 t)) txs ++
      List.replicate (2 * 2 ^ k - 1 - txs.length) none)
    (List.map (fun t => leafInput t.WitnessHash) txs)
    (by omega) (by omega) (by simp; omega) (by
      intro idx hidx
      rw [hTdef, treeLevels_head sha3 k _ idx (by omega)]
      simp only [leafLevel]
      by_cases h : idx < txs.length
      · rw [List.getElem?_append_left (by simpa using h),
          List.getElem?_append_left (by simpa using h)]
      · rw [List.getElem?_append_right (by simpa using h),
          List.getElem?_append_right (by simpa using h)]
        simp only [List.length_map]
        rw [List.getElem?_replicate, List.getElem?_replicate]
        rw [if_pos (by omega), if_pos (by omega)])
  simpa using hmain

theorem log2Fuel_eq (fuel : Nat) : ∀ n, n ≤ fuel → log2Fuel fuel n = Nat.log 2 n := by
  induction fuel with
  | zero => intro n hn; have : n = 0 := by omega
            subst this; simp [log2Fuel]
  | succ f ih =>
    intro n hn
    rw [log2Fuel]
    by_cases h : n < 2
    · rw [if_pos h, Nat.log_of_lt h]
    · rw [if_neg h, ih (n / 2) (by omega)]
      rw [Nat.log_div_base]
      have : 1 ≤ Nat.log 2 n := by
        have := Nat.log_pos (b := 2) (by norm_num) (by omega : 2 ≤ n)
        omega
      omega

theorem floorLog2_eq (n : Nat) : floorLog2 n = Nat.log 2 n := log2Fuel_eq n n le_rfl

theorem doubleUntil_eq (n : Nat) : ∀ (fuel j : Nat), j ≤ Nat.clog 2 n →
    Nat.clog 2 n - j ≤ fuel → doubleUntil fuel (2 ^ j) n = 2 ^ Nat.clog 2 n := by
  intro fuel
  induction fuel with
  | zero =>
    intro j h1 h2
    have : j = Nat.clog 2 n := by omega
    rw [doubleUntil, this]
  | succ f ih =>
    intro j h1 h2
    rw [doubleUntil]
    by_cases h : n ≤ 2 ^ j
    · rw [if_pos h]
      have : Nat.clog 2 n ≤ j := (Nat.le_pow_iff_clog_le (by norm_num)).mp h
      have : j = Nat.clog 2 n := by omega
      rw [← this]
    · rw [if_neg h]
      have hlt : j < Nat.clog 2 n := by
        by_contra hc
        exact h ((Nat.le_pow_iff_clog_le (by norm_num)).mpr (by omega))
      have := ih (j + 1) (by omega) (by omega)
      rw [pow_succ, mul_comm] at this
      exact this

theorem smallestPowerOfTwoGE_eq (n : Nat) (hn : 0 < n) :
    smallestPowerOfTwoGE n = 2 ^ Nat.clog 2 n := by
  unfold smallestPowerOfTwoGE
  rw [if_neg (by omega)]
  have hfuel : Nat.clog 2 n ≤ n :=
    (Nat.le_pow_iff_clog_le (by norm_num)).mp (Nat.lt_two_pow n).le
  have := doubleUntil_eq n n 0 (by omega) (by omega)
  simpa using this

theorem land_pred_eq_zero (n : Nat) : 0 < n → n &&& (n - 1) = 0 → ∃ k, n = 2 ^ k := by
  induction n using Nat.strong_induction_on with
  | _ n ih =>
    intro hn h
    have hdiv : (n / 2) &&& ((n - 1) / 2) = 0 := by
      rw [← Nat.and_div_two, h]
    rcases Nat.even_or_odd' n with ⟨m, hm | hm⟩
    · -- n = 2 * m
      have hm0 : 0 < m := by omega
      have e1 : n / 2 = m := by omega
      have e2 : (n - 1) / 2 = m - 1 := by omega
      rw [e1, e2] at hdiv
      obtain ⟨k, hk⟩ := ih m (by omega) hm0 hdiv
      exact ⟨k + 1, by rw [hm, hk, pow_succ]; ring⟩
    · -- n = 2 * m + 1
      have e1 : n / 2 = m := by omega
      have e2 : (n - 1) / 2 = m := by omega
      rw [e1, e2, Nat.and_self] at hdiv
      exact ⟨0, by omega⟩

theorem land_pred_two_pow (k : Nat) : 2 ^ k &&& (2 ^ k - 1) = 0 := by
  rw [Nat.and_pow_two_sub_one_eq_mod]; simp

theorem pred_mod_word (n : Nat) (h1 : 0 < n) (h2 : n < 2 ^ 63) :
    (n + 2 ^ 64 - 1) % 2 ^ 64 = n - 1 := by
  norm_num at h2 ⊢
  omega

theorem wrapInt_of_range (z : Int) (h1 : -2 ^ 63 ≤ z) (h2 : z < 2 ^ 63) : wrapInt z = z := by
  unfold wrapInt
  norm_num at h1 h2 ⊢
  omega

theorem nextPowerOfTwo_two_pow (fl : Nat → Nat) (k : Nat) (hk : k ≤ 62) :
    nextPowerOfTwo fl (2 ^ k) = ((2 ^ k : Nat) : Int) := by
  have hlt : 2 ^ k < 2 ^ 63 := Nat.pow_lt_pow_right (by norm_num) (by omega)
  unfold nextPowerOfTwo
  rw [pred_mod_word _ (Nat.two_pow_pos k) hlt, land_pred_two_pow, if_pos rfl]

theorem wrapInt_lt (z : Int) : wrapInt z < 2 ^ 63 := by
  unfold wrapInt
  norm_num
  omega

theorem nextPowerOfTwo_lt (fl : Nat → Nat) (n : Nat) (h : n < 2 ^ 63) :
    nextPowerOfTwo fl n < 2 ^ 63 := by
  unfold nextPowerOfTwo
  split
  · exact_mod_cast h
  · exact wrapInt_lt _

theorem float64_small (n : Nat) (h : n < 2 ^ 53) : float64 n = n := by
  unfold float64
  have : floorLog2 n + 1 ≤ 53 := by
    rw [floorLog2_eq]
    by_cases h0 : n = 0
    · subst h0; simp
    · have := Nat.log_lt_of_lt_pow (b := 2) h0 h
      omega
  simp only [if_pos this]

theorem uintLog2_small (fl : Nat → Nat) (n : Nat) (h : n < 2 ^ 47) :
    uintLog2 fl (float64 n) = Nat.log 2 n := by
  rw [float64_small n (lt_of_lt_of_le h (by norm_num))]
  unfold uintLog2
  rw [if_pos (Or.inl h), floorLog2_eq]

theorem clog_eq_log_succ (n : Nat) (h1 : 0 < n) (h : ¬ ∃ k, n = 2 ^ k) :
    Nat.clog 2 n = Nat.log 2 n + 1 := by
  apply le_antisymm
  · exact (Nat.le_pow_iff_clog_le (by norm_num)).mp (Nat.lt_pow_succ_log_self (by norm_num) n).le
  · have hle : 2 ^ Nat.log 2 n ≤ n := Nat.pow_log_le_self 2 (by omega)
    have hne : 2 ^ Nat.log 2 n ≠ n := fun e => h ⟨_, e.symm⟩
    have hlt : 2 ^ Nat.log 2 n < n := lt_of_le_of_ne hle hne
    exact (Nat.pow_lt_iff_lt_clog (by norm_num)).mp hlt

theorem nextPowerOfTwo_exact (fl : Nat → Nat) (n : Nat) (h1 : 0 < n) (h2 : n ≤ 2 ^ 62)
    (hlog : uintLog2 fl (float64 n) = Nat.log 2 n) :
    nextPowerOfTwo fl n = ((2 ^ Nat.clog 2 n : Nat) : Int) := by
  have hlt : n < 2 ^ 63 := lt_of_le_of_lt h2 (by norm_num)
  unfold nextPowerOfTwo
  rw [pred_mod_word n h1 hlt]
  split
  · rename_i hz
    obtain ⟨k, hk⟩ := land_pred_eq_zero n h1 hz
    rw [hk, Nat.clog_pow 2 k (by norm_num)]
  · rename_i hz
    have hnp : ¬ ∃ k, n = 2 ^ k := by
      rintro ⟨k, hk⟩
      exact hz (by rw [hk]; exact land_pred_two_pow k)
    rw [clog_eq_log_succ n h1 hnp]
    simp only [hlog]
    have hn62 : n < 2 ^ 62 := lt_of_le_of_ne h2 (fun e => hnp ⟨62, e⟩)
    have hl : Nat.log 2 n < 62 := Nat.log_lt_of_lt_pow (by omega) hn62
    have hp : (2 : Int) ^ (Nat.log 2 n + 1) ≤ 2 ^ 62 :=
      pow_le_pow_right₀ (by norm_num) (by omega)
    have hp0 : (0 : Int) < 2 ^ (Nat.log 2 n + 1) := by positivity
    rw [wrapInt_of_range _ (by norm_num at hp ⊢; omega) (by norm_num at hp ⊢; omega)]
    push_cast; rfl

theorem plannerExact_of_small (fl : Nat → Nat) (n : Nat) (h : n < 2 ^ 47) :
    PlannerExact fl n := by
  refine ⟨lt_of_lt_of_le h (by norm_num), ?_⟩
  by_cases h0 : n = 0
  · subst h0; rfl
  · rw [smallestPowerOfTwoGE_eq n (by omega)]
    exact nextPowerOfTwo_exact fl n (by omega) (le_of_lt (lt_of_lt_of_le h (by norm_num)))
      (uintLog2_small fl n h)

theorem plannerExact_pow (fl : Nat → Nat) (n : Nat) (h0 : 0 < n) (h : PlannerExact fl n) :
    ∃ k, k ≤ 62 ∧ n ≤ 2 ^ k ∧ nextPowerOfTwo fl n = ((2 ^ k : Nat) : Int) ∧
      k = Nat.clog 2 n := by
  obtain ⟨hlt, he⟩ := h
  rw [smallestPowerOfTwoGE_eq n h0] at he
  refine ⟨Nat.clog 2 n, ?_, Nat.le_pow_clog (by norm_num) n, he, rfl⟩
  have hb := nextPowerOfTwo_lt fl n hlt
  rw [he] at hb
  have hb' : 2 ^ Nat.clog 2 n < 2 ^ 63 := by exact_mod_cast hb
  have := (Nat.pow_lt_pow_iff_right (a := 2) (by norm_num)).mp hb'
  omega

theorem carryUp_length (sha3 : List Byte → Hash) :
    ∀ xs : List Hash, (carryUp sha3 xs).length = (xs.length + 1) / 2
  | [] => by simp [carryUp]
  | [_] => by simp [carryUp]
  | a :: b :: rest => by
    simp [carryUp, carryUp_length sha3 rest]; omega

theorem pairUp_replicate_none (sha3 : List Byte → Hash) :
    ∀ s : Nat, pairUp sha3 (List.replicate (2 * s) none) = List.replicate s none
  | 0 => by simp [pairUp]
  | s + 1 => by
    have : 2 * (s + 1) = s * 2 + 1 + 1 := by ring
    rw [this, List.replicate_succ, List.replicate_succ, pairUp, List.replicate_succ]
    have e : s * 2 = 2 * s := by ring
    rw [e, pairUp_replicate_none sha3 s]
    simp [parentOf]

theorem slots_nil (n : Nat) : slots [] n = List.replicate n none := by
  simp [slots]

theorem slots_cons (a : Hash) (xs : List Hash) (n : Nat) :
    slots (a :: xs) (n + 1) = some a :: slots xs n := by
  simp [slots]

theorem slots_length (xs : List Hash) (n : Nat) (h : xs.length ≤ n) :
    (slots xs n).length = n := by
  simp [slots]; omega

theorem pairUp_slots (sha3 : List Byte → Hash) :
    ∀ (xs : List Hash) (s : Nat), xs.length ≤ 2 * s →
      pairUp sha3 (slots xs (2 * s)) = slots (carryUp sha3 xs) s
  | [], s, _ => by
    simp only [slots_nil, carryUp]
    exact pairUp_replicate_none sha3 s
  | [a], s, h => by
    obtain ⟨s', rfl⟩ : ∃ s', s = s' + 1 := ⟨s - 1, by simp at h; omega⟩
    have : 2 * (s' + 1) = 2 * s' + 1 + 1 := by ring
    rw [this, slots_cons, slots_nil, List.replicate_succ, pairUp, pairUp_replicate_none]
    simp [carryUp, slots, parentOf]
  | a :: b :: rest, s, h => by
    obtain ⟨s', rfl⟩ : ∃ s', s = s' + 1 := ⟨s - 1, by simp at h; omega⟩
    have : 2 * (s' + 1) = 2 * s' + 1 + 1 := by ring
    rw [this, slots_cons, slots_cons, pairUp, pairUp_slots sha3 rest s' (by simp at h; omega)]
    simp only [carryUp, slots_cons, parentOf]

theorem pairInputs_replicate_none : ∀ n : Nat, pairInputs (List.replicate n none) = []
  | 0 => by simp [pairInputs]
  | 1 => by simp [pairInputs]
  | n + 2 => by
    rw [List.replicate_succ, List.replicate_succ, pairInputs, pairInputs_replicate_none n]
    simp

theorem pairInputs_slots : ∀ (xs : List Hash) (n : Nat), xs.length ≤ n →
    pairInputs (slots xs n) = carryInputs xs
  | [], n, _ => by rw [slots_nil, pairInputs_replicate_none]; simp [carryInputs]
  | [a], n, h => by
    obtain ⟨n', rfl⟩ : ∃ n', n = n' + 1 := ⟨n - 1, by simp at h; omega⟩
    rw [slots_cons, slots_nil]
    cases n' with
    | zero => simp [pairInputs, carryInputs]
    | succ m =>
      rw [List.replicate_succ, pairInputs, pairInputs_replicate_none]
      · simp [carryInputs]
      · simp
  | a :: b :: rest, n, h => by
    obtain ⟨n', rfl⟩ : ∃ n', n = n' + 2 := ⟨n - 2, by simp at h; omega⟩
    rw [slots_cons, slots_cons, pairInputs, pairInputs_slots rest n' (by simp at h; omega)]
    simp [carryInputs]

theorem pairInputs_append : ∀ (A B : List (Option Hash)), A.length % 2 = 0 →
    pairInputs (A ++ B) = pairInputs A ++ pairInputs B
  | [], B, _ => by simp [pairInputs]
  | [_], B, h => by simp at h
  | a :: b :: rest, B, h => by
    have ih := pairInputs_append rest B (by simp at h; omega)
    cases a <;> cases b <;> simp [pairInputs, ih]

theorem leafLevel_eq_slots (sha3 : List Byte → Hash) (txs : List Tx) (n : Nat) :
    leafLevel sha3 txs n = slots (txs.map (leafHash sha3)) n := by
  simp [leafLevel, slots]

theorem pairInputs_treeLevels (sha3 : List Byte → Hash) :
    ∀ (k : Nat) (xs : List Hash), xs.length ≤ 2 ^ k →
      pairInputs (treeLevels sha3 k (slots xs (2 ^ k))) = levelInputs sha3 k xs
  | 0, xs, h => by
    simp only [treeLevels, levelInputs]
    have hl := slots_length xs (2 ^ 0) h
    match hs : slots xs (2 ^ 0), hl with
    | [x], _ => simp [pairInputs]
  | k + 1, xs, h => by
    have e : 2 ^ (k + 1) = 2 * 2 ^ k := by rw [pow_succ]; ring
    have hc : (carryUp sha3 xs).length ≤ 2 ^ k := by rw [carryUp_length]; omega
    simp only [treeLevels, levelInputs]
    rw [pairInputs_append _ _ (by rw [slots_length xs _ h, e]; omega)]
    rw [pairInputs_slots xs _ h]
    rw [e, pairUp_slots sha3 xs (2 ^ k) (by omega), pairInputs_treeLevels sha3 k _ hc]

theorem treeLevels_level (sha3 : List Byte → Hash) :
    ∀ (l k : Nat) (lv : List (Option Hash)), l ≤ k → lv.length = 2 ^ k →
      ∀ j, j < 2 ^ (k - l) →
        (treeLevels sha3 k lv)[2 * 2 ^ k - 2 * 2 ^ (k - l) + j]? = ((pairUp sha3)^[l] lv)[j]? := by
  intro l
  induction l with
  | zero =>
    intro k lv _ hlen j hj
    simp only [Nat.sub_zero, Nat.sub_self, Nat.zero_add, Function.iterate_zero, id_eq]
    exact treeLevels_head sha3 k lv j (by rw [hlen]; simpa using hj)
  | succ l ih =>
    intro k lv hl hlen j hj
    obtain ⟨k', rfl⟩ : ∃ k', k = k' + 1 := ⟨k - 1, by omega⟩
    have hp : (pairUp sha3 lv).length = 2 ^ k' := by
      rw [pairUp_length, hlen, pow_succ]; simp
    have e1 : k' + 1 - (l + 1) = k' - l := by omega
    rw [e1] at hj ⊢
    have e2 : 2 ^ (k' + 1) = 2 * 2 ^ k' := by rw [pow_succ]; ring
    have hb : 2 ^ (k' - l) ≤ 2 ^ k' := Nat.pow_le_pow_right (by norm_num) (by omega)
    simp only [treeLevels, Function.iterate_succ, Function.comp_apply]
    rw [List.getElem?_append_right (by rw [hlen, e2]; omega)]
    rw [← ih k' (pairUp sha3 lv) (by omega) hp j hj]
    congr 1
    rw [hlen, e2]; omega

theorem iterate_pairUp_slots (sha3 : List Byte → Hash) :
    ∀ (l k : Nat) (xs : List Hash), l ≤ k → xs.length ≤ 2 ^ k →
      (pairUp sha3)^[l] (slots xs (2 ^ k)) = slots ((carryUp sha3)^[l] xs) (2 ^ (k - l)) := by
  intro l
  induction l with
  | zero => intro k xs _ _; simp
  | succ l ih =>
    intro k xs hl hlen
    obtain ⟨k', rfl⟩ : ∃ k', k = k' + 1 := ⟨k - 1, by omega⟩
    have e2 : 2 ^ (k' + 1) = 2 * 2 ^ k' := by rw [pow_succ]; ring
    have hc : (carryUp sha3 xs).length ≤ 2 ^ k' := by rw [carryUp_length]; omega
    simp only [Function.iterate_succ, Function.comp_apply]
    rw [e2, pairUp_slots sha3 xs _ (by omega), ih k' _ (by omega) hc]
    congr 2
    omega

theorem iterate_carryUp_length (sha3 : List Byte → Hash) :
    ∀ (l : Nat) (xs : List Hash),
      ((carryUp sha3)^[l] xs).length = (xs.length + 2 ^ l - 1) / 2 ^ l := by
  intro l
  induction l with
  | zero => intro xs; simp
  | succ l ih =>
    intro xs
    simp only [Function.iterate_succ, Function.comp_apply]
    rw [ih, carryUp_length]
    have hpos : 0 < 2 ^ l := Nat.two_pow_pos l
    have e : 2 ^ (l + 1) = 2 * 2 ^ l := by rw [pow_succ]; ring
    rw [e, ← Nat.div_div_eq_div_mul]
    congr 1
    -- (n + 1) / 2 + (p - 1) = (n + 2 p - 1) / 2 with p = 2 ^ l
    omega

theorem slots_getElem?_lt (xs : List Hash) (n j : Nat) (h : j < xs.length) :
    (slots xs n)[j]? = some (some xs[j]) := by
  unfold slots
  rw [List.getElem?_append_left (by simpa using h)]
  simp [h]

theorem slots_getElem?_ge (xs : List Hash) (n j : Nat) (h : xs.length ≤ j) (hn : j < n) :
    (slots xs n)[j]? = some none := by
  unfold slots
  rw [List.getElem?_append_right (by simpa using h)]
  simp only [List.length_map]
  rw [List.getElem?_replicate, if_pos (by omega)]

theorem buildMerkleTreeStore_spec (fl : Nat → Nat) (sha3 : List Byte → Hash)
    (txs : List Tx) (k : Nat) (hk : k ≤ 62)
    (hP : nextPowerOfTwo fl txs.length = ((2 ^ k : Nat) : Int))
    (hlen : txs.length ≤ 2 ^ k) :
    buildMerkleTreeStore fl sha3 txs =
      .ok (treeLevels sha3 k (leafLevel sha3 txs (2 ^ k))) := by
  rw [← buildMerkleTreeStoreLog_fst, buildMerkleTreeStoreLog_spec fl sha3 txs k hk hP hlen]
  rfl

theorem iterate_carryUp_top (sha3 : List Byte → Hash) (k : Nat) (xs : List Hash)
    (h0 : 0 < xs.length) (hlen : xs.length ≤ 2 ^ k) :
    ∃ r, (carryUp sha3)^[k] xs = [r] := by
  have hl := iterate_carryUp_length sha3 k xs
  have hpos : 0 < 2 ^ k := Nat.two_pow_pos k
  have h1 : (xs.length + 2 ^ k - 1) / 2 ^ k = 1 := by
    apply Nat.div_eq_of_lt_le
    · omega
    · omega
  rw [h1] at hl
  match hc : (carryUp sha3)^[k] xs, hl with
  | [r], _ => exact ⟨r, rfl⟩

theorem treeLevels_last (sha3 : List Byte → Hash) (k : Nat) (xs : List Hash) (r : Hash)
    (hlen : xs.length ≤ 2 ^ k) (hr : (carryUp sha3)^[k] xs = [r]) :
    (treeLevels sha3 k (slots xs (2 ^ k)))[2 * 2 ^ k - 2]? = some (some r) := by
  have h := treeLevels_level sha3 k k (slots xs (2 ^ k)) le_rfl (slots_length xs _ hlen) 0
    (by simp)
  simp only [Nat.sub_self, pow_zero, Nat.add_zero, Nat.mul_one] at h
  rw [h, iterate_pairUp_slots sha3 k k xs le_rfl hlen, hr]
  simp [slots]

theorem CalcMerkleRoot_spec (fl : Nat → Nat) (sha3 : List Byte → Hash)
    (txs : List Tx) (k : Nat) (h0 : 0 < txs.length) (hk : k ≤ 62)
    (hP : nextPowerOfTwo fl txs.length = ((2 ^ k : Nat) : Int))
    (hlen : txs.length ≤ 2 ^ k) (r : Hash)
    (hr : (carryUp sha3)^[k] (txs.map (leafHash sha3)) = [r]) :
    CalcMerkleRoot fl sha3 txs = .ok r := by
  unfold CalcMerkleRoot
  rw [if_neg (by omega), buildMerkleTreeStore_spec fl sha3 txs k hk hP hlen]
  simp only []
  have hll := leafLevel_length sha3 txs (2 ^ k) hlen
  have hTlen := treeLevels_length sha3 k _ hll
  have hpos : 0 < 2 ^ k := Nat.two_pow_pos k
  rw [if_neg (by rw [hTlen]; omega), hTlen]
  have e : 2 * 2 ^ k - 1 - 1 = 2 * 2 ^ k - 2 := by omega
  rw [e, leafLevel_eq_slots, treeLevels_last sha3 k _ r (by simpa using hlen) hr]

theorem largestPowerOfTwoBelow_pos (n : Nat) : 0 < largestPowerOfTwoBelow n :=
  Nat.two_pow_pos _

theorem largestPowerOfTwoBelow_lt (n : Nat) (h : 2 ≤ n) : largestPowerOfTwoBelow n < n := by
  unfold largestPowerOfTwoBelow
  rw [floorLog2_eq]
  have := Nat.pow_log_le_self 2 (by omega : n - 1 ≠ 0)
  omega

theorem largestPowerOfTwoBelow_eq (n k : Nat) (h1 : 2 ^ k < n) (h2 : n ≤ 2 ^ (k + 1)) :
    largestPowerOfTwoBelow n = 2 ^ k := by
  unfold largestPowerOfTwoBelow
  have e : 2 ^ (k + 1) = 2 * 2 ^ k := by rw [pow_succ]; ring
  rw [floorLog2_eq, Nat.log_eq_of_pow_le_of_lt_pow (m := k) (by omega) (by omega)]

theorem mthFuel_stable (sha3 : List Byte → Hash) :
    ∀ (f f' : Nat) (L : List Hash), L.length ≤ f → L.length ≤ f' →
      mthFuel sha3 f L = mthFuel sha3 f' L := by
  intro f
  induction f with
  | zero =>
    intro f' L h _
    have : L = [] := List.length_eq_zero.mp (by omega)
    subst this
    cases f' <;> rfl
  | succ f ih =>
    intro f' L h h'
    match L, h, h' with
    | [], _, _ => cases f' <;> rfl
    | [d], _, _ => cases f' <;> rfl
    | d :: e :: rest, h, h' =>
      obtain ⟨g, rfl⟩ : ∃ g, f' = g + 1 := ⟨f' - 1, by simp at h'; omega⟩
      have hk0 := largestPowerOfTwoBelow_pos (rest.length + 2)
      have hk1 := largestPowerOfTwoBelow_lt (rest.length + 2) (by omega)
      simp only [mthFuel]
      have ht : ((d :: e :: rest).take (largestPowerOfTwoBelow (rest.length + 2))).length ≤ f := by
        simp [List.length_take] at h ⊢; omega
      have hd : ((d :: e :: rest).drop (largestPowerOfTwoBelow (rest.length + 2))).length ≤ f := by
        simp [List.length_drop] at h ⊢; omega
      have ht' : ((d :: e :: rest).take (largestPowerOfTwoBelow (rest.length + 2))).length ≤ g := by
        simp [List.length_take] at h' ⊢; omega
      have hd' : ((d :: e :: rest).drop (largestPowerOfTwoBelow (rest.length + 2))).length ≤ g := by
        simp [List.length_drop] at h' ⊢; omega
      rw [ih g _ ht ht', ih g _ hd hd']

theorem MTH_singleton (sha3 : List Byte → Hash) (d : Hash) :
    MTH sha3 [d] = sha3 (0x00 :: d.bytes) := rfl

theorem MTH_split (sha3 : List Byte → Hash) (L : List Hash) (h : 2 ≤ L.length) :
    MTH sha3 L = sha3 (0x01 :: ((MTH sha3 (L.take (largestPowerOfTwoBelow L.length))).bytes ++
      (MTH sha3 (L.drop (largestPowerOfTwoBelow L.length))).bytes)) := by
  match L, h with
  | d :: e :: rest, h =>
    have hk0 := largestPowerOfTwoBelow_pos (rest.length + 2)
    have hk1 := largestPowerOfTwoBelow_lt (rest.length + 2) (by omega)
    unfold MTH
    simp only [List.length_cons, mthFuel]
    rw [mthFuel_stable sha3 (rest.length + 1) _ _ (by simp [List.length_take]; omega) le_rfl,
      mthFuel_stable sha3 (rest.length + 1) _ _ (by simp [List.length_drop]; omega) le_rfl]

theorem mthInputsFuel_stable (sha3 : List Byte → Hash) :
    ∀ (f f' : Nat) (L : List Hash), L.length ≤ f → L.length ≤ f' →
      mthInputsFuel sha3 f L = mthInputsFuel sha3 f' L := by
  intro f
  induction f with
  | zero =>
    intro f' L h _
    have : L = [] := List.length_eq_zero.mp (by omega)
    subst this
    cases f' <;> rfl
  | succ f ih =>
    intro f' L h h'
    match L, h, h' with
    | [], _, _ => cases f' <;> rfl
    | [d], _, _ => cases f' <;> rfl
    | d :: e :: rest, h, h' =>
      obtain ⟨g, rfl⟩ : ∃ g, f' = g + 1 := ⟨f' - 1, by simp at h'; omega⟩
      have hk0 := largestPowerOfTwoBelow_pos (rest.length + 2)
      have hk1 := largestPowerOfTwoBelow_lt (rest.length + 2) (by omega)
      simp only [mthInputsFuel]
      have ht : ((d :: e :: rest).take (largestPowerOfTwoBelow (rest.length + 2))).length ≤ f := by
        simp [List.length_take] at h ⊢; omega
      have hd : ((d :: e :: rest).drop (largestPowerOfTwoBelow (rest.length + 2))).length ≤ f := by
        simp [List.length_drop] at h ⊢; omega
      have ht' : ((d :: e :: rest).take (largestPowerOfTwoBelow (rest.length + 2))).length ≤ g := by
        simp [List.length_take] at h' ⊢; omega
      have hd' : ((d :: e :: rest).drop (largestPowerOfTwoBelow (rest.length + 2))).length ≤ g := by
        simp [List.length_drop] at h' ⊢; omega
      rw [ih g _ ht ht', ih g _ hd hd', mthFuel_stable sha3 f g _ ht ht',
        mthFuel_stable sha3 f g _ hd hd']

theorem mthInputs_singleton (sha3 : List Byte → Hash) (d : Hash) :
    mthInputs sha3 [d] = [0x00 :: d.bytes] := rfl

theorem mthInputs_split (sha3 : List Byte → Hash) (L : List Hash) (h : 2 ≤ L.length) :
    mthInputs sha3 L =
      mthInputs sha3 (L.take (largestPowerOfTwoBelow L.length)) ++
      mthInputs sha3 (L.drop (largestPowerOfTwoBelow L.length)) ++
      [0x01 :: ((MTH sha3 (L.take (largestPowerOfTwoBelow L.length))).bytes ++
        (MTH sha3 (L.drop (largestPowerOfTwoBelow L.length))).bytes)] := by
  match L, h with
  | d :: e :: rest, h =>
    have hk0 := largestPowerOfTwoBelow_pos (rest.length + 2)
    have hk1 := largestPowerOfTwoBelow_lt (rest.length + 2) (by omega)
    unfold mthInputs MTH
    simp only [List.length_cons, mthInputsFuel]
    rw [mthInputsFuel_stable sha3 (rest.length + 1) _ _ (by simp [List.length_take]; omega) le_rfl,
      mthInputsFuel_stable sha3 (rest.length + 1) _ _ (by simp [List.length_drop]; omega) le_rfl,
      mthFuel_stable sha3 (rest.length + 1) _ _ (by simp [List.length_take]; omega) le_rfl,
      mthFuel_stable sha3 (rest.length + 1) _ _ (by simp [List.length_drop]; omega) le_rfl]

theorem carryUp_append (sha3 : List Byte → Hash) :
    ∀ (A B : List Hash), A.length % 2 = 0 →
      carryUp sha3 (A ++ B) = carryUp sha3 A ++ carryUp sha3 B
  | [], B, _ => by simp [carryUp]
  | [_], B, h => by simp at h
  | a :: b :: rest, B, h => by
    have ih := carryUp_append sha3 rest B (by simp at h; omega)
    simp [carryUp, ih]

theorem carryInputs_append :
    ∀ (A B : List Hash), A.length % 2 = 0 →
      carryInputs (A ++ B) = carryInputs A ++ carryInputs B
  | [], B, _ => by simp [carryInputs]
  | [_], B, h => by simp at h
  | a :: b :: rest, B, h => by
    have ih := carryInputs_append rest B (by simp at h; omega)
    simp [carryInputs, ih]

theorem iterate_carryUp_append (sha3 : List Byte → Hash) :
    ∀ (j : Nat) (A B : List Hash), 2 ^ j ∣ A.length →
      (carryUp sha3)^[j] (A ++ B) = (carryUp sha3)^[j] A ++ (carryUp sha3)^[j] B := by
  intro j
  induction j with
  | zero => intro A B _; simp
  | succ j ih =>
    intro A B hdiv
    obtain ⟨c, hc⟩ := hdiv
    have hA : A.length = 2 * (2 ^ j * c) := by rw [hc, pow_succ]; ring
    simp only [Function.iterate_succ, Function.comp_apply]
    rw [carryUp_append sha3 A B (by omega)]
    apply ih
    rw [carryUp_length]
    exact ⟨c, by omega⟩

theorem levelInputs_append (sha3 : List Byte → Hash) :
    ∀ (j : Nat) (A B : List Hash), 2 ^ j ∣ A.length → ∀ x,
      x ∈ levelInputs sha3 j (A ++ B) ↔
        x ∈ levelInputs sha3 j A ∨ x ∈ levelInputs sha3 j B := by
  intro j
  induction j with
  | zero => intro A B _ x; simp [levelInputs]
  | succ j ih =>
    intro A B hdiv x
    obtain ⟨c, hc⟩ := hdiv
    have hA : A.length = 2 * (2 ^ j * c) := by rw [hc, pow_succ]; ring
    simp only [levelInputs, List.mem_append]
    rw [carryInputs_append A B (by omega), carryUp_append sha3 A B (by omega),
      ih _ _ (by rw [carryUp_length]; exact ⟨c, by omega⟩)]
    simp only [List.mem_append]
    tauto

theorem levelInputs_mono (sha3 : List Byte → Hash) :
    ∀ (k : Nat) (xs : List Hash) (x : List Byte),
      x ∈ levelInputs sha3 k xs → x ∈ levelInputs sha3 (k + 1) xs := by
  intro k
  induction k with
  | zero => intro xs x h; simp [levelInputs] at h
  | succ k ih =>
    intro xs x h
    rw [levelInputs] at h ⊢
    rcases List.mem_append.mp h with h | h
    · exact List.mem_append.mpr (Or.inl h)
    · exact List.mem_append.mpr (Or.inr (ih _ _ h))

theorem levelInputs_top (sha3 : List Byte → Hash) :
    ∀ (k : Nat) (xs : List Hash) (x : List Byte),
      x ∈ carryInputs ((carryUp sha3)^[k] xs) → x ∈ levelInputs sha3 (k + 1) xs := by
  intro k
  induction k with
  | zero => intro xs x h; simpa [levelInputs] using h
  | succ k ih =>
    intro xs x h
    rw [levelInputs]
    simp only [Function.iterate_succ, Function.comp_apply] at h
    exact List.mem_append.mpr (Or.inr (ih _ _ h))

/-- The leaf hash of a digest. -/
theorem leafHash_eq (sha3 : List Byte → Hash) (t : Tx) :
    leafHash sha3 t = sha3 (0x00 :: t.WitnessHash.bytes) := rfl

theorem hashMerkleBranches_eq (sha3 : List Byte → Hash) (l r : Hash) :
    hashMerkleBranches sha3 l r = sha3 (0x01 :: (l.bytes ++ r.bytes)) := rfl

theorem iterate_carryUp_eq_MTH (sha3 : List Byte → Hash) :
    ∀ (k : Nat) (ds : List Hash), 0 < ds.length → ds.length ≤ 2 ^ k →
      (carryUp sha3)^[k] (ds.map (fun d => sha3 (0x00 :: d.bytes))) = [MTH sha3 ds] ∧
      ∀ x ∈ mthInputs sha3 ds,
        x ∈ ds.map (fun d => (0x00 : Byte) :: d.bytes) ∨
        x ∈ levelInputs sha3 k (ds.map (fun d => sha3 (0x00 :: d.bytes))) := by
  intro k
  induction k with
  | zero =>
    intro ds h0 h1
    match ds, h0, h1 with
    | [d], _, _ =>
      refine ⟨rfl, ?_⟩
      intro x hx
      left
      simpa [mthInputs_singleton] using hx
  | succ k ih =>
    intro ds h0 h1
    have e : 2 ^ (k + 1) = 2 * 2 ^ k := by rw [pow_succ]; ring
    by_cases hs : ds.length ≤ 2 ^ k
    · obtain ⟨h, hin⟩ := ih ds h0 hs
      refine ⟨?_, ?_⟩
      · rw [Function.iterate_succ_apply', h]; rfl
      · intro x hx
        rcases hin x hx with h' | h'
        · exact Or.inl h'
        · exact Or.inr (levelInputs_mono sha3 k _ x h')
    · have hs' : 2 ^ k < ds.length := by omega
      have hpos : 0 < 2 ^ k := Nat.two_pow_pos k
      have hk := largestPowerOfTwoBelow_eq ds.length k hs' h1
      set A := ds.take (2 ^ k) with hA
      set B := ds.drop (2 ^ k) with hB
      have hAB : ds = A ++ B := (List.take_append_drop _ _).symm
      have hAl : A.length = 2 ^ k := by simp [hA, List.length_take]; omega
      have hBl : B.length = ds.length - 2 ^ k := by simp [hB]
      obtain ⟨hAm, hAin⟩ := ih A (by omega) (by omega)
      obtain ⟨hBm, hBin⟩ := ih B (by omega) (by omega)
      have hsplit := MTH_split sha3 ds (by omega)
      have hisplit := mthInputs_split sha3 ds (by omega)
      rw [hk] at hsplit hisplit
      have hdiv : 2 ^ k ∣ (A.map (fun d => sha3 (0x00 :: d.bytes))).length := by
        simp [hAl]
      have hiter : (carryUp sha3)^[k] (ds.map (fun d => sha3 (0x00 :: d.bytes))) =
          [MTH sha3 A, MTH sha3 B] := by
        conv_lhs => rw [hAB]
        rw [List.map_append, iterate_carryUp_append sha3 k _ _ hdiv, hAm, hBm]
        rfl
      refine ⟨?_, ?_⟩
      · rw [Function.iterate_succ_apply', hiter, hsplit]
        rfl
      · intro x hx
        rw [hisplit] at hx
        have hmapAB : ds.map (fun d => sha3 (0x00 :: d.bytes)) =
            A.map (fun d => sha3 (0x00 :: d.bytes)) ++ B.map (fun d => sha3 (0x00 :: d.bytes)) := by
          conv_lhs => rw [hAB]
          rw [List.map_append]
        have hmapAB' : ds.map (fun d => (0x00 : Byte) :: d.bytes) =
            A.map (fun d => (0x00 : Byte) :: d.bytes) ++ B.map (fun d => (0x00 : Byte) :: d.bytes) := by
          conv_lhs => rw [hAB]
          rw [List.map_append]
        have hlev := levelInputs_append sha3 k _ (B.map (fun d => sha3 (0x00 :: d.bytes))) hdiv x
        rw [← hmapAB] at hlev
        simp only [List.mem_append, List.mem_singleton] at hx
        rcases hx with (hx | hx) | hx
        · rcases hAin x hx with h' | h'
          · left; rw [hmapAB']; exact List.mem_append.mpr (Or.inl h')
          · right; exact levelInputs_mono sha3 k _ x (hlev.mpr (Or.inl h'))
        · rcases hBin x hx with h' | h'
          · left; rw [hmapAB']; exact List.mem_append.mpr (Or.inr h')
          · right; exact levelInputs_mono sha3 k _ x (hlev.mpr (Or.inr h'))
        · right
          apply levelInputs_top
          rw [hiter, hx]
          simp [carryInputs, interiorInput, interiorPrefix]

theorem Hash.ext_bytes {a b : Hash} (h : a.bytes = b.bytes) : a = b := by
  cases a; cases b; simp at h; subst h; rfl

theorem interior_bytes_inj {a b c d : Hash}
    (h : (0x01 : Byte) :: (a.bytes ++ b.bytes) = 0x01 :: (c.bytes ++ d.bytes)) :
    a = c ∧ b = d := by
  have h' : a.bytes ++ b.bytes = c.bytes ++ d.bytes := List.tail_eq_of_cons_eq h
  have := List.append_inj h' (by rw [a.size, c.size])
  exact ⟨Hash.ext_bytes this.1, Hash.ext_bytes this.2⟩

theorem mthInputs_last_mem (sha3 : List Byte → Hash) (L : List Hash) (h : 2 ≤ L.length) :
    (0x01 : Byte) :: ((MTH sha3 (L.take (largestPowerOfTwoBelow L.length))).bytes ++
        (MTH sha3 (L.drop (largestPowerOfTwoBelow L.length))).bytes) ∈ mthInputs sha3 L := by
  rw [mthInputs_split sha3 L h]; simp

theorem MTH_injective (sha3 : List Byte → Hash) :
    ∀ (n : Nat) (A B : List Hash), A.length ≤ n → 0 < A.length → 0 < B.length →
      MTH sha3 A = MTH sha3 B →
      A = B ∨ ∃ x ∈ mthInputs sha3 A, ∃ y ∈ mthInputs sha3 B, x ≠ y ∧ sha3 x = sha3 y := by
  intro n
  induction n with
  | zero => intro A B h h0; omega
  | succ n ih =>
    intro A B hn hA hB heq
    by_cases hA1 : A.length = 1
    · obtain ⟨a, rfl⟩ := List.length_eq_one.mp hA1
      by_cases hB1 : B.length = 1
      · obtain ⟨b, rfl⟩ := List.length_eq_one.mp hB1
        rw [MTH_singleton, MTH_singleton] at heq
        by_cases hin : (0x00 : Byte) :: a.bytes = 0x00 :: b.bytes
        · left
          have : a = b := Hash.ext_bytes (List.tail_eq_of_cons_eq hin)
          rw [this]
        · right
          exact ⟨_, by simp [mthInputs_singleton], _, by simp [mthInputs_singleton], hin, heq⟩
      · right
        have hB2 : 2 ≤ B.length := by omega
        rw [MTH_singleton, MTH_split sha3 B hB2] at heq
        exact ⟨_, by simp [mthInputs_singleton], _, mthInputs_last_mem sha3 B hB2,
          by simp, heq⟩
    · have hA2 : 2 ≤ A.length := by omega
      by_cases hB1 : B.length = 1
      · obtain ⟨b, rfl⟩ := List.length_eq_one.mp hB1
        right
        rw [MTH_singleton, MTH_split sha3 A hA2] at heq
        exact ⟨_, mthInputs_last_mem sha3 A hA2, _, by simp [mthInputs_singleton],
          by simp, heq⟩
      · have hB2 : 2 ≤ B.length := by omega
        have hkA0 := largestPowerOfTwoBelow_pos A.length
        have hkA1 := largestPowerOfTwoBelow_lt A.length hA2
        have hkB0 := largestPowerOfTwoBelow_pos B.length
        have hkB1 := largestPowerOfTwoBelow_lt B.length hB2
        rw [MTH_split sha3 A hA2, MTH_split sha3 B hB2] at heq
        set A1 := A.take (largestPowerOfTwoBelow A.length) with hA1d
        set A2 := A.drop (largestPowerOfTwoBelow A.length) with hA2d
        set B1 := B.take (largestPowerOfTwoBelow B.length) with hB1d
        set B2 := B.drop (largestPowerOfTwoBelow B.length) with hB2d
        have hmA := mthInputs_split sha3 A hA2
        have hmB := mthInputs_split sha3 B hB2
        rw [← hA1d, ← hA2d] at hmA
        rw [← hB1d, ← hB2d] at hmB
        by_cases hin : (0x01 : Byte) :: ((MTH sha3 A1).bytes ++ (MTH sha3 A2).bytes) =
            0x01 :: ((MTH sha3 B1).bytes ++ (MTH sha3 B2).bytes)
        · obtain ⟨e1, e2⟩ := interior_bytes_inj hin
          have lA1 : A1.length = largestPowerOfTwoBelow A.length := by
            simp [hA1d, List.length_take]; omega
          have lA2 : A2.length = A.length - largestPowerOfTwoBelow A.length := by
            simp [hA2d]
          have lB1 : B1.length = largestPowerOfTwoBelow B.length := by
            simp [hB1d, List.length_take]; omega
          have lB2 : B2.length = B.length - largestPowerOfTwoBelow B.length := by
            simp [hB2d]
          rcases ih A1 B1 (by omega) (by omega) (by omega) e1 with h1 | ⟨x, hx, y, hy, hne, hc⟩
          · rcases ih A2 B2 (by omega) (by omega) (by omega) e2 with h2 | ⟨x, hx, y, hy, hne, hc⟩
            · left
              rw [← List.take_append_drop (largestPowerOfTwoBelow A.length) A,
                ← List.take_append_drop (largestPowerOfTwoBelow B.length) B]
              rw [← hA1d, ← hA2d, ← hB1d, ← hB2d, h1, h2]
            · right
              exact ⟨x, by rw [hmA]; simp [hx], y, by rw [hmB]; simp [hy], hne, hc⟩
          · right
            exact ⟨x, by rw [hmA]; simp [hx], y, by rw [hmB]; simp [hy], hne, hc⟩
        · right
          exact ⟨_, by rw [hmA]; simp, _, by rw [hmB]; simp, hin, heq⟩

theorem sha3Inputs_spec (fl : Nat → Nat) (sha3 : List Byte → Hash)
    (txs : List Tx) (k : Nat) (h0 : 0 < txs.length) (hk : k ≤ 62)
    (hP : nextPowerOfTwo fl txs.length = ((2 ^ k : Nat) : Int))
    (hlen : txs.length ≤ 2 ^ k) :
    sha3Inputs fl sha3 txs =
      txs.map (fun t => leafInput t.WitnessHash) ++
        levelInputs sha3 k (txs.map (leafHash sha3)) := by
  unfold sha3Inputs
  rw [if_neg (by omega), buildMerkleTreeStoreLog_spec fl sha3 txs k hk hP hlen]
  simp only []
  rw [leafLevel_eq_slots, pairInputs_treeLevels sha3 k _ (by simpa using hlen)]

theorem map_leafHash (sha3 : List Byte → Hash) (txs : List Tx) :
    (txs.map Tx.WitnessHash).map (fun d => sha3 (0x00 :: d.bytes)) =
      txs.map (leafHash sha3) := by
  rw [List.map_map]; rfl

theorem map_leafInput (txs : List Tx) :
    (txs.map Tx.WitnessHash).map (fun d => (0x00 : Byte) :: d.bytes) =
      txs.map (fun t => leafInput t.WitnessHash) := by
  rw [List.map_map]; rfl

theorem CalcMerkleRoot_eq_MTH (fl : Nat → Nat) (sha3 : List Byte → Hash)
    (txs : List Tx) (k : Nat) (h0 : 0 < txs.length) (hk : k ≤ 62)
    (hP : nextPowerOfTwo fl txs.length = ((2 ^ k : Nat) : Int))
    (hlen : txs.length ≤ 2 ^ k) :
    CalcMerkleRoot fl sha3 txs = .ok (MTH sha3 (txs.map Tx.WitnessHash)) := by
  apply CalcMerkleRoot_spec fl sha3 txs k h0 hk hP hlen
  have := (iterate_carryUp_eq_MTH sha3 k (txs.map Tx.WitnessHash) (by simpa using h0)
    (by simpa using hlen)).1
  rwa [map_leafHash] at this

theorem mthInputs_subset (fl : Nat → Nat) (sha3 : List Byte → Hash)
    (txs : List Tx) (k : Nat) (h0 : 0 < txs.length) (hk : k ≤ 62)
    (hP : nextPowerOfTwo fl txs.length = ((2 ^ k : Nat) : Int))
    (hlen : txs.length ≤ 2 ^ k) (x : List Byte)
    (hx : x ∈ mthInputs sha3 (txs.map Tx.WitnessHash)) :
    x ∈ sha3Inputs fl sha3 txs := by
  rw [sha3Inputs_spec fl sha3 txs k h0 hk hP hlen]
  have := (iterate_carryUp_eq_MTH sha3 k (txs.map Tx.WitnessHash) (by simpa using h0)
    (by simpa using hlen)).2 x hx
  rw [map_leafHash, map_leafInput] at this
  exact List.mem_append.mpr this

theorem map_WitnessHash_injective (A B : List Tx)
    (h : A.map Tx.WitnessHash = B.map Tx.WitnessHash) : A = B := by
  have hinj : Function.Injective Tx.WitnessHash := by
    intro a b hab
    cases a; cases b; simp at hab; subst hab; rfl
  exact List.map_injective_iff.mpr hinj h

theorem root_eq_cases (fl : Nat → Nat) (sha3 : List Byte → Hash) (A B : List Tx)
    (hA0 : 0 < A.length) (hB0 : 0 < B.length)
    (hA : PlannerExact fl A.length) (hB : PlannerExact fl B.length)
    (hroot : CalcMerkleRoot fl sha3 A = CalcMerkleRoot fl sha3 B) :
    A = B ∨ ∃ x ∈ sha3Inputs fl sha3 A, ∃ y ∈ sha3Inputs fl sha3 B,
      x ≠ y ∧ sha3 x = sha3 y := by
  obtain ⟨kA, hkA, hlA, hPA, _⟩ := plannerExact_pow fl A.length hA0 hA
  obtain ⟨kB, hkB, hlB, hPB, _⟩ := plannerExact_pow fl B.length hB0 hB
  rw [CalcMerkleRoot_eq_MTH fl sha3 A kA hA0 hkA hPA hlA,
    CalcMerkleRoot_eq_MTH fl sha3 B kB hB0 hkB hPB hlB] at hroot
  have hm : MTH sha3 (A.map Tx.WitnessHash) = MTH sha3 (B.map Tx.WitnessHash) :=
    Except.ok.inj hroot
  rcases MTH_injective sha3 _ _ _ le_rfl (by simpa using hA0) (by simpa using hB0) hm with
    h | ⟨x, hx, y, hy, hne, hc⟩
  · exact Or.inl (map_WitnessHash_injective A B h)
  · exact Or.inr ⟨x, mthInputs_subset fl sha3 A kA hA0 hkA hPA hlA x hx,
      y, mthInputs_subset fl sha3 B kB hB0 hkB hPB hlB y hy, hne, hc⟩

theorem foldLoop_fuel (sha3 : List Byte → Hash) (n : Nat) :
    ∀ (fuel i o : Nat) (m : List (Option Hash)), n ≤ i + 2 * fuel + 1 →
      foldLoop sha3 n fuel i o m ≠ .error .outOfFuel := by
  intro fuel
  induction fuel with
  | zero =>
    intro i o m h
    rw [foldLoop, if_neg (by omega)]
    simp
  | succ fuel ih =>
    intro i o m h
    rw [foldLoop]
    split
    · cases h1 : m[i]? with
      | none => simp
      | some a =>
        cases a with
        | none =>
          simp only []
          split
          · exact ih _ _ _ (by omega)
          · simp
        | some l =>
          simp only []
          cases h2 : m[i + 1]? with
          | none => simp
          | some b =>
            cases b with
            | none =>
              simp only []
              split
              · exact ih _ _ _ (by omega)
              · simp
            | some r =>
              simp only []
              split
              · exact ih _ _ _ (by omega)
              · simp
    · simp

theorem leafLoop_fuel (sha3 : List Byte → Hash) :
    ∀ (txs : List Tx) (i : Nat) (m : List (Option Hash)),
      leafLoop sha3 txs i m ≠ .error .outOfFuel
  | [], i, m => by simp [leafLoop]
  | t :: rest, i, m => by
    rw [leafLoop]
    split
    · exact leafLoop_fuel sha3 rest _ _
    · simp

theorem buildMerkleTreeStore_fuel (fl : Nat → Nat) (sha3 : List Byte → Hash)
    (txs : List Tx) : buildMerkleTreeStore fl sha3 txs ≠ .error .outOfFuel := by
  unfold buildMerkleTreeStore
  simp only []
  split
  · simp
  · split
    · rename_i e he
      intro hc
      have : e = Panic.outOfFuel := by injection hc
      rw [this] at he
      exact leafLoop_fuel sha3 _ _ _ he
    · exact foldLoop_fuel sha3 _ _ _ _ _ (by omega)

theorem nextPowerOfTwo_three (fl : Nat → Nat) :
    nextPowerOfTwo fl 3 = ((2 ^ 2 : Nat) : Int) := by
  rw [(plannerExact_of_small fl 3 (by norm_num)).2]; decide

/-! ## The claims -/

/-- C1. For three transactions with digests `d1`, `d2`, `d3` the padded size
is 4, the store is `[L1, L2, L3, absent, I(L1,L2), L3, I(I(L1,L2),L3)]` (the
odd third leaf is carried up unchanged, not hashed with itself), and
`CalcMerkleRoot` returns `I(I(L1,L2),L3)`; here `Li = H(0x00 || di)` and
`I(l, r) = H(0x01 || l || r)`, written out in full below. -/
theorem three_transactions_store (fl : Nat → Nat) (sha3 : List Byte → Hash) (t1 t2 t3 : Tx) :
    nextPowerOfTwo fl [t1, t2, t3].length = 4 ∧
    buildMerkleTreeStore fl sha3 [t1, t2, t3] =
      .ok [some (sha3 (0x00 :: t1.WitnessHash.bytes)),
        some (sha3 (0x00 :: t2.WitnessHash.bytes)),
        some (sha3 (0x00 :: t3.WitnessHash.bytes)),
        none,
        some (sha3 (0x01 :: ((sha3 (0x00 :: t1.WitnessHash.bytes)).bytes ++
          (sha3 (0x00 :: t2.WitnessHash.bytes)).bytes))),
        some (sha3 (0x00 :: t3.WitnessHash.bytes)),
        some (sha3 (0x01 ::
          ((sha3 (0x01 :: ((sha3 (0x00 :: t1.WitnessHash.bytes)).bytes ++
            (sha3 (0x00 :: t2.WitnessHash.bytes)).bytes))).bytes ++
          (sha3 (0x00 :: t3.WitnessHash.bytes)).bytes)))] ∧
    CalcMerkleRoot fl sha3 [t1, t2, t3] =
      .ok (sha3 (0x01 ::
        ((sha3 (0x01 :: ((sha3 (0x00 :: t1.WitnessHash.bytes)).bytes ++
          (sha3 (0x00 :: t2.WitnessHash.bytes)).bytes))).bytes ++
        (sha3 (0x00 :: t3.WitnessHash.bytes)).bytes))) ∧
    (leafHash sha3 t1 = sha3 (0x00 :: t1.WitnessHash.bytes) ∧
      leafHash sha3 t2 = sha3 (0x00 :: t2.WitnessHash.bytes) ∧
      leafHash sha3 t3 = sha3 (0x00 :: t3.WitnessHash.bytes) ∧
      hashMerkleBranches sha3 (leafHash sha3 t1) (leafHash sha3 t2) =
        sha3 (0x01 :: ((sha3 (0x00 :: t1.WitnessHash.bytes)).bytes ++
          (sha3 (0x00 :: t2.WitnessHash.bytes)).bytes))) := by
  refine ⟨nextPowerOfTwo_three fl, ?_, ?_, rfl, rfl, rfl, rfl⟩
  · rw [buildMerkleTreeStore_spec fl sha3 [t1, t2, t3] 2 (by norm_num)
      (nextPowerOfTwo_three fl) (by simp)]
    rfl
  · exact CalcMerkleRoot_spec fl sha3 [t1, t2, t3] 2 (by simp) (by norm_num)
      (nextPowerOfTwo_three fl) (by simp) _ rfl

/-- C2. `CalcMerkleRoot` of the empty list is the hash of thirty-two zero
bytes; the builder is not involved: called on the empty list it would stop
in `make` with a negative length. -/
theorem calcMerkleRoot_empty (fl : Nat → Nat) (sha3 : List Byte → Hash) :
    CalcMerkleRoot fl sha3 [] = .ok zeroHash ∧
    zeroHash.bytes = List.replicate 32 0 ∧
    buildMerkleTreeStore fl sha3 [] = .error .makesliceLenOutOfRange := by
  refine ⟨rfl, rfl, ?_⟩
  unfold buildMerkleTreeStore
  have h : nextPowerOfTwo fl ([] : List Tx).length = 0 := rfl
  have hw : wrapInt (wrapInt (0 * 2) - 1) = -1 := by decide
  simp only [h, hw]
  rfl

/-- C3. For a single transaction with digest `d1` the store is the one slot
`H(0x00 || d1)`, the second loop returns at once (even with no iteration
allowed), the only byte string hashed is `0x00 || d1`, and `CalcMerkleRoot`
returns `H(0x00 || d1)`. -/
theorem single_transaction_root (fl : Nat → Nat) (sha3 : List Byte → Hash) (t1 : Tx) :
    buildMerkleTreeStore fl sha3 [t1] = .ok [some (sha3 (0x00 :: t1.WitnessHash.bytes))] ∧
    foldLoop sha3 1 0 0 1 [some (sha3 (0x00 :: t1.WitnessHash.bytes))] =
      .ok [some (sha3 (0x00 :: t1.WitnessHash.bytes))] ∧
    sha3Inputs fl sha3 [t1] = [0x00 :: t1.WitnessHash.bytes] ∧
    CalcMerkleRoot fl sha3 [t1] = .ok (sha3 (0x00 :: t1.WitnessHash.bytes)) := by
  refine ⟨?_, rfl, ?_, ?_⟩
  · rw [buildMerkleTreeStore_spec fl sha3 [t1] 0 (by norm_num) (nextPowerOfTwo_two_pow fl 0 (by norm_num)) (by simp)]
    rfl
  · rw [sha3Inputs_spec fl sha3 [t1] 0 (by simp) (by norm_num) (nextPowerOfTwo_two_pow fl 0 (by norm_num)) (by simp)]
    rfl
  · exact CalcMerkleRoot_spec fl sha3 [t1] 0 (by simp) (by norm_num) (nextPowerOfTwo_two_pow fl 0 (by norm_num)) (by simp) _ rfl

/-- C4. For two transactions with digests `d1`, `d2`, `CalcMerkleRoot` returns
`H(0x01 || H(0x00 || d1) || H(0x00 || d2))`, which is
`hashMerkleBranches (leafHash t1) (leafHash t2)`: the first leaf is the left
operand. -/
theorem two_transactions_root (fl : Nat → Nat) (sha3 : List Byte → Hash) (t1 t2 : Tx) :
    CalcMerkleRoot fl sha3 [t1, t2] =
      .ok (sha3 (0x01 :: ((sha3 (0x00 :: t1.WitnessHash.bytes)).bytes ++
        (sha3 (0x00 :: t2.WitnessHash.bytes)).bytes))) ∧
    CalcMerkleRoot fl sha3 [t1, t2] =
      .ok (hashMerkleBranches sha3 (leafHash sha3 t1) (leafHash sha3 t2)) := by
  have h := CalcMerkleRoot_spec fl sha3 [t1, t2] 1 (by simp) (by norm_num) (nextPowerOfTwo_two_pow fl 1 (by norm_num)) (by simp)
    (hashMerkleBranches sha3 (leafHash sha3 t1) (leafHash sha3 t2)) rfl
  exact ⟨h, h⟩

/-- C5. `CalcMerkleRoot` is total on every list of a length for which
`nextPowerOfTwo` returns the correct power of two: it returns a hash, so no
slice index leaves the store and no absent slot is dereferenced; for a
non-empty list the builder returns a store whose last slot is present and is
the root. -/
theorem calcMerkleRoot_total (fl : Nat → Nat) (sha3 : List Byte → Hash) (txs : List Tx)
    (h : PlannerExact fl txs.length) :
    ∃ r, CalcMerkleRoot fl sha3 txs = .ok r ∧
      (txs = [] ∨ ∃ store, buildMerkleTreeStore fl sha3 txs = .ok store ∧
        store.getLast? = some (some r)) := by
  by_cases h0 : txs = []
  · subst h0
    exact ⟨zeroHash, rfl, Or.inl rfl⟩
  · have hpos : 0 < txs.length := List.length_pos.mpr h0
    obtain ⟨k, hk, hlen, hP, _⟩ := plannerExact_pow fl txs.length hpos h
    obtain ⟨r, hr⟩ := iterate_carryUp_top sha3 k (txs.map (leafHash sha3))
      (by simpa using hpos) (by simpa using hlen)
    refine ⟨r, CalcMerkleRoot_spec fl sha3 txs k hpos hk hP hlen r hr, Or.inr ?_⟩
    refine ⟨_, buildMerkleTreeStore_spec fl sha3 txs k hk hP hlen, ?_⟩
    have hll := leafLevel_length sha3 txs (2 ^ k) hlen
    have hTlen := treeLevels_length sha3 k _ hll
    rw [List.getLast?_eq_getElem?, hTlen, leafLevel_eq_slots]
    have e : 2 * 2 ^ k - 1 - 1 = 2 * 2 ^ k - 2 := by omega
    rw [e]
    exact treeLevels_last sha3 k _ r (by simpa using hlen) hr

theorem calcMerkleRoot_total_witness :
    PlannerExact floorLog2 [sampleTx 1, sampleTx 2, sampleTx 3].length ∧
    ∃ r, CalcMerkleRoot floorLog2 toySum256 [sampleTx 1, sampleTx 2, sampleTx 3] = .ok r ∧
      ([sampleTx 1, sampleTx 2, sampleTx 3] = [] ∨
        ∃ store, buildMerkleTreeStore floorLog2 toySum256
            [sampleTx 1, sampleTx 2, sampleTx 3] = .ok store ∧
          store.getLast? = some (some r)) :=
  ⟨by decide, calcMerkleRoot_total floorLog2 toySum256 [sampleTx 1, sampleTx 2, sampleTx 3]
    (by decide)⟩

/-- C6. At `n = 2^54 - 1` the conversion to `float64` rounds up to `2^54`, the
logarithm is exactly 54 and `nextPowerOfTwo` returns `2^55`, while `2^54` is
already a power of two that is at least `n`: the exponent is off by one. At
`n = 2^62 + 1` the shift leaves the range of `int`, and whatever the
logarithm returns the result is not a power of two that is at least `n`. -/
theorem nextPowerOfTwo_inexact :
    (∀ fl, nextPowerOfTwo fl (2 ^ 54 - 1) = 2 ^ 55) ∧
    (2 ^ 54 - 1 ≤ 2 ^ 54 ∧ smallestPowerOfTwoGE (2 ^ 54 - 1) = 2 ^ 54) ∧
    (∀ fl, ¬ (IsPowerOfTwo (nextPowerOfTwo fl (2 ^ 62 + 1)) ∧
      ((2 ^ 62 + 1 : Nat) : Int) ≤ nextPowerOfTwo fl (2 ^ 62 + 1))) := by
  refine ⟨?_, ⟨by norm_num, by decide⟩, ?_⟩
  · intro fl
    have h1 : ¬ ((2 ^ 54 - 1) &&& ((2 ^ 54 - 1 + 2 ^ 64 - 1) % 2 ^ 64) = 0) := by decide
    have h2 : float64 (2 ^ 54 - 1) = 2 ^ 54 := by decide
    have h3 : uintLog2 fl (2 ^ 54) = 54 := by
      unfold uintLog2
      rw [if_pos (Or.inr (by decide))]
      decide
    unfold nextPowerOfTwo
    rw [if_neg h1]
    simp only [h2, h3]
    decide
  · intro fl
    rintro ⟨⟨k, hk⟩, hle⟩
    have hlt := nextPowerOfTwo_lt fl (2 ^ 62 + 1) (by norm_num)
    rw [hk] at hlt hle
    have h1 : k < 63 := by
      by_contra hc
      have : (2 : Int) ^ 63 ≤ 2 ^ k := pow_le_pow_right₀ (by norm_num) (by omega)
      omega
    have h2 : (2 : Int) ^ k ≤ 2 ^ 62 := pow_le_pow_right₀ (by norm_num) (by omega)
    norm_num at hle h2
    omega

/-- C7, counterexample. `nextPowerOfTwo(0)` is `0`, which is not a power of
two. -/
theorem nextPowerOfTwo_zero_not_power :
    nextPowerOfTwo floorLog2 0 = 0 ∧ ¬ IsPowerOfTwo (nextPowerOfTwo floorLog2 0) := by
  refine ⟨by decide, ?_⟩
  rintro ⟨k, hk⟩
  have h0 : nextPowerOfTwo floorLog2 0 = 0 := by decide
  rw [h0] at hk
  have : (0 : Int) < 2 ^ k := by positivity
  omega

/-- C7, amended. For `1 ≤ n ≤ 2^62` at which the truncated float logarithm is
the floor of the binary logarithm (always so below `2^47`), `nextPowerOfTwo(n)`
is a power of two, is at least `n`, and is `n` itself unless `n` is not a power
of two. -/
theorem nextPowerOfTwo_power_ge (fl : Nat → Nat) (n : Nat) (h1 : 1 ≤ n) (h2 : n ≤ 2 ^ 62)
    (hlog : uintLog2 fl (float64 n) = floorLog2 n) :
    IsPowerOfTwo (nextPowerOfTwo fl n) ∧ (n : Int) ≤ nextPowerOfTwo fl n ∧
      (nextPowerOfTwo fl n = n ∨ ¬ IsPowerOfTwo (n : Int)) := by
  rw [floorLog2_eq] at hlog
  have he := nextPowerOfTwo_exact fl n h1 h2 hlog
  refine ⟨⟨Nat.clog 2 n, by rw [he]; push_cast; rfl⟩, ?_, ?_⟩
  · rw [he]; exact_mod_cast Nat.le_pow_clog (by norm_num) n
  · by_cases hp : IsPowerOfTwo (n : Int)
    · left
      obtain ⟨k, hk⟩ := hp
      have hk' : n = 2 ^ k := by exact_mod_cast hk
      rw [he, hk', Nat.clog_pow 2 k (by norm_num)]
    · exact Or.inr hp

theorem nextPowerOfTwo_power_ge_witness :
    (1 ≤ 5 ∧ 5 ≤ 2 ^ 62 ∧ uintLog2 floorLog2 (float64 5) = floorLog2 5) ∧
    IsPowerOfTwo (nextPowerOfTwo floorLog2 5) ∧ ((5 : Nat) : Int) ≤ nextPowerOfTwo floorLog2 5 ∧
      (nextPowerOfTwo floorLog2 5 = (5 : Nat) ∨ ¬ IsPowerOfTwo ((5 : Nat) : Int)) :=
  ⟨⟨by decide, by decide, by decide⟩,
    nextPowerOfTwo_power_ge floorLog2 5 (by decide) (by decide) (by decide)⟩

theorem pair_root_eq (fl : Nat → Nat) (sha3 : List Byte → Hash) (t1 t2 : Tx) :
    CalcMerkleRoot fl sha3 [t1, t2] =
      .ok (hashMerkleBranches sha3 (leafHash sha3 t1) (leafHash sha3 t2)) :=
  CalcMerkleRoot_spec fl sha3 [t1, t2] 1 (by simp) (by norm_num)
    (nextPowerOfTwo_two_pow fl 1 (by norm_num)) (by simp) _ rfl

/-- C8. Sensitivity: if two transaction lists of the same non-zero length
(one for which `nextPowerOfTwo` is correct) have the same root, then either
the lists are equal, or two distinct byte strings, one handed to `sha3` in
each computation, have the same hash. Replacing one digest by a different one
therefore changes the root unless such a collision occurs. -/
theorem root_sensitive (fl : Nat → Nat) (sha3 : List Byte → Hash) (A B : List Tx)
    (hne : A ≠ []) (hlen : A.length = B.length) (hA : PlannerExact fl A.length)
    (hroot : CalcMerkleRoot fl sha3 A = CalcMerkleRoot fl sha3 B) :
    A = B ∨ ∃ x ∈ sha3Inputs fl sha3 A, ∃ y ∈ sha3Inputs fl sha3 B,
      x ≠ y ∧ sha3 x = sha3 y := by
  have hA0 : 0 < A.length := List.length_pos.mpr hne
  exact root_eq_cases fl sha3 A B hA0 (by omega) hA (by rw [← hlen]; exact hA) hroot

theorem root_sensitive_witness :
    ([sampleTx 1, sampleTx 2, sampleTx 3] ≠ [] ∧
      [sampleTx 1, sampleTx 2, sampleTx 3].length = [sampleTx 1, sampleTx 2, sampleTx 4].length ∧
      PlannerExact floorLog2 [sampleTx 1, sampleTx 2, sampleTx 3].length ∧
      CalcMerkleRoot floorLog2 constSum256 [sampleTx 1, sampleTx 2, sampleTx 3] =
        CalcMerkleRoot floorLog2 constSum256 [sampleTx 1, sampleTx 2, sampleTx 4]) ∧
    ([sampleTx 1, sampleTx 2, sampleTx 3] = [sampleTx 1, sampleTx 2, sampleTx 4] ∨
      ∃ x ∈ sha3Inputs floorLog2 constSum256 [sampleTx 1, sampleTx 2, sampleTx 3],
        ∃ y ∈ sha3Inputs floorLog2 constSum256 [sampleTx 1, sampleTx 2, sampleTx 4],
          x ≠ y ∧ constSum256 x = constSum256 y) :=
  have hroot : CalcMerkleRoot floorLog2 constSum256 [sampleTx 1, sampleTx 2, sampleTx 3] =
      CalcMerkleRoot floorLog2 constSum256 [sampleTx 1, sampleTx 2, sampleTx 4] :=
    (CalcMerkleRoot_spec floorLog2 constSum256 [sampleTx 1, sampleTx 2, sampleTx 3] 2
      (by decide) (by decide) (by decide) (by decide) zeroHash rfl).trans
    (CalcMerkleRoot_spec floorLog2 constSum256 [sampleTx 1, sampleTx 2, sampleTx 4] 2
      (by decide) (by decide) (by decide) (by decide) zeroHash rfl).symm
  ⟨⟨by decide, by decide, by decide, hroot⟩,
    root_sensitive floorLog2 constSum256 [sampleTx 1, sampleTx 2, sampleTx 3]
      [sampleTx 1, sampleTx 2, sampleTx 4] (by decide) (by decide) (by decide) hroot⟩

/-- C9. Order sensitivity: for two transactions with distinct digests `a`, `b`,
if `sha3` has no collision among `0x00||a`, `0x00||b`,
`0x01||LeafHash(a)||LeafHash(b)` and `0x01||LeafHash(b)||LeafHash(a)`, then
`CalcMerkleRoot([a,b])` and `CalcMerkleRoot([b,a])` are two different hashes. -/
theorem root_order_sensitive (fl : Nat → Nat) (sha3 : List Byte → Hash) (ta tb : Tx)
    (hne : ta.WitnessHash ≠ tb.WitnessHash)
    (hnc : NoCollisionOn sha3
      [leafInput ta.WitnessHash, leafInput tb.WitnessHash,
       interiorInput (leafHash sha3 ta) (leafHash sha3 tb),
       interiorInput (leafHash sha3 tb) (leafHash sha3 ta)]) :
    ∃ r1 r2, CalcMerkleRoot fl sha3 [ta, tb] = .ok r1 ∧
      CalcMerkleRoot fl sha3 [tb, ta] = .ok r2 ∧ r1 ≠ r2 := by
  refine ⟨_, _, (pair_root_eq fl sha3 ta tb), (pair_root_eq fl sha3 tb ta), ?_⟩
  intro heq
  have h1 : interiorInput (leafHash sha3 ta) (leafHash sha3 tb) =
      interiorInput (leafHash sha3 tb) (leafHash sha3 ta) :=
    hnc _ (by simp) _ (by simp) heq
  have h2 : leafHash sha3 ta = leafHash sha3 tb := (interior_bytes_inj h1).1
  have h3 : leafInput ta.WitnessHash = leafInput tb.WitnessHash :=
    hnc _ (by simp) _ (by simp) h2
  exact hne (Hash.ext_bytes (List.tail_eq_of_cons_eq h3))

theorem root_order_sensitive_witness :
    ((sampleTx 1).WitnessHash ≠ (sampleTx 2).WitnessHash ∧
      NoCollisionOn toySum256
        [leafInput (sampleTx 1).WitnessHash, leafInput (sampleTx 2).WitnessHash,
         interiorInput (leafHash toySum256 (sampleTx 1)) (leafHash toySum256 (sampleTx 2)),
         interiorInput (leafHash toySum256 (sampleTx 2)) (leafHash toySum256 (sampleTx 1))]) ∧
    ∃ r1 r2, CalcMerkleRoot floorLog2 toySum256 [sampleTx 1, sampleTx 2] = .ok r1 ∧
      CalcMerkleRoot floorLog2 toySum256 [sampleTx 2, sampleTx 1] = .ok r2 ∧ r1 ≠ r2 :=
  ⟨⟨by decide, by decide⟩,
    root_order_sensitive floorLog2 toySum256 (sampleTx 1) (sampleTx 2) (by decide) (by decide)⟩

/-- C10. Domain separation: the leaf input is the byte `0x00` followed by the
32 bytes of the digest, the interior input is the byte `0x01` followed by the
left and then the right hash; `leafHash` and `hashMerkleBranches` hash exactly
these; the two inputs differ in their first byte, so where `sha3` has no
collision between them a leaf hash differs from an interior hash. -/
theorem domain_separation (sha3 : List Byte → Hash) (t : Tx) (y z : Hash)
    (hnc : NoCollisionOn sha3 [leafInput t.WitnessHash, interiorInput y z]) :
    leafInput t.WitnessHash = 0x00 :: t.WitnessHash.bytes ∧
    (leafInput t.WitnessHash).length = 33 ∧
    interiorInput y z = 0x01 :: (y.bytes ++ z.bytes) ∧
    (interiorInput y z).length = 65 ∧
    leafHash sha3 t = sha3 (0x00 :: t.WitnessHash.bytes) ∧
    hashMerkleBranches sha3 y z = sha3 (0x01 :: (y.bytes ++ z.bytes)) ∧
    (leafInput t.WitnessHash).head? ≠ (interiorInput y z).head? ∧
    leafInput t.WitnessHash ≠ interiorInput y z ∧
    leafHash sha3 t ≠ hashMerkleBranches sha3 y z := by
  have hd : leafInput t.WitnessHash ≠ interiorInput y z := by
    simp [leafInput, interiorInput, leafPrefix, interiorPrefix]
  refine ⟨rfl, ?_, rfl, ?_, rfl, rfl, ?_, hd, ?_⟩
  · simp [leafInput, leafPrefix, t.WitnessHash.size]
  · simp [interiorInput, interiorPrefix, y.size, z.size]
  · simp [leafInput, interiorInput, leafPrefix, interiorPrefix]
  · intro heq
    exact hd (hnc _ (by simp) _ (by simp) heq)

theorem domain_separation_witness :
    NoCollisionOn toySum256
      [leafInput (sampleTx 1).WitnessHash, interiorInput (digestOf 2) (digestOf 3)] ∧
    (leafInput (sampleTx 1).WitnessHash = 0x00 :: (sampleTx 1).WitnessHash.bytes ∧
    (leafInput (sampleTx 1).WitnessHash).length = 33 ∧
    interiorInput (digestOf 2) (digestOf 3) = 0x01 :: ((digestOf 2).bytes ++ (digestOf 3).bytes) ∧
    (interiorInput (digestOf 2) (digestOf 3)).length = 65 ∧
    leafHash toySum256 (sampleTx 1) = toySum256 (0x00 :: (sampleTx 1).WitnessHash.bytes) ∧
    hashMerkleBranches toySum256 (digestOf 2) (digestOf 3) =
      toySum256 (0x01 :: ((digestOf 2).bytes ++ (digestOf 3).bytes)) ∧
    (leafInput (sampleTx 1).WitnessHash).head? ≠ (interiorInput (digestOf 2) (digestOf 3)).head? ∧
    leafInput (sampleTx 1).WitnessHash ≠ interiorInput (digestOf 2) (digestOf 3) ∧
    leafHash toySum256 (sampleTx 1) ≠ hashMerkleBranches toySum256 (digestOf 2) (digestOf 3)) :=
  ⟨by decide, domain_separation toySum256 (sampleTx 1) (digestOf 2) (digestOf 3) (by decide)⟩

theorem pairUp_present (sha3 : List Byte → Hash) :
    ∀ lv : List (Option Hash), (∀ x ∈ lv, x ≠ none) → ∀ y ∈ pairUp sha3 lv, y ≠ none
  | [], _, y, hy => by simp [pairUp] at hy
  | [_], _, y, hy => by simp [pairUp] at hy
  | a :: b :: rest, h, y, hy => by
    simp only [pairUp, List.mem_cons] at hy
    rcases hy with hy | hy
    · have ha := h a (by simp)
      have hb := h b (by simp)
      cases a with
      | none => exact absurd rfl ha
      | some l =>
        cases b with
        | none => exact absurd rfl hb
        | some r => rw [hy]; simp [parentOf]
    · exact pairUp_present sha3 rest (fun x hx => h x (by simp [hx])) y hy

theorem treeLevels_present (sha3 : List Byte → Hash) :
    ∀ (k : Nat) (lv : List (Option Hash)), (∀ x ∈ lv, x ≠ none) →
      ∀ y ∈ treeLevels sha3 k lv, y ≠ none
  | 0, lv, h, y, hy => h y (by simpa [treeLevels] using hy)
  | k + 1, lv, h, y, hy => by
    simp only [treeLevels, List.mem_append] at hy
    rcases hy with hy | hy
    · exact h y hy
    · exact treeLevels_present sha3 k _ (pairUp_present sha3 lv h) y hy

theorem treeLevels_left_absent (sha3 : List Byte → Hash) :
    ∀ (k : Nat) (xs : List Hash), xs.length ≤ 2 ^ k → ∀ j b,
      (treeLevels sha3 k (slots xs (2 ^ k)))[2 * j]? = some none →
      (treeLevels sha3 k (slots xs (2 ^ k)))[2 * j + 1]? = some b → b = none
  | 0, xs, h, j, b, h1, h2 => by
    have hl := slots_length xs (2 ^ 0) h
    simp only [treeLevels] at h1 h2
    have := (List.getElem?_eq_some.mp h2).1
    rw [hl] at this
    simp at this
  | k + 1, xs, h, j, b, h1, h2 => by
    have e : 2 ^ (k + 1) = 2 * 2 ^ k := by rw [pow_succ]; ring
    have hl := slots_length xs (2 ^ (k + 1)) h
    have hc : (carryUp sha3 xs).length ≤ 2 ^ k := by rw [carryUp_length]; omega
    simp only [treeLevels] at h1 h2
    by_cases hj : 2 * j < 2 ^ (k + 1)
    · have hj1 : 2 * j + 1 < 2 ^ (k + 1) := by omega
      rw [List.getElem?_append_left (by omega)] at h1 h2
      by_cases hx : 2 * j < xs.length
      · rw [slots_getElem?_lt xs _ _ hx] at h1
        simp at h1
      · rw [slots_getElem?_ge xs _ _ (by omega) hj1] at h2
        exact (Option.some.inj h2).symm
    · rw [List.getElem?_append_right (by omega)] at h1 h2
      rw [hl] at h1 h2
      obtain ⟨j', rfl⟩ : ∃ j', j = 2 ^ k + j' := ⟨j - 2 ^ k, by omega⟩
      have e1 : 2 * (2 ^ k + j') - 2 ^ (k + 1) = 2 * j' := by omega
      have e2 : 2 * (2 ^ k + j') + 1 - 2 ^ (k + 1) = 2 * j' + 1 := by omega
      rw [e1, e, pairUp_slots sha3 xs _ (by omega)] at h1
      rw [e2, e, pairUp_slots sha3 xs _ (by omega)] at h2
      exact treeLevels_left_absent sha3 k _ hc j' b h1 h2

theorem slots_map_isSome (xs : List Hash) (n : Nat) :
    (slots xs n).map Option.isSome =
      List.replicate xs.length true ++ List.replicate (n - xs.length) false := by
  unfold slots
  rw [List.map_append, List.map_map, List.map_replicate]
  congr 1
  apply List.ext_getElem <;> simp

theorem treeLevels_pattern (sha3 : List Byte → Hash) :
    ∀ (k : Nat) (xs ys : List Hash), xs.length = ys.length → ys.length ≤ 2 ^ k →
      (treeLevels sha3 k (slots xs (2 ^ k))).map Option.isSome =
        (treeLevels sha3 k (slots ys (2 ^ k))).map Option.isSome
  | 0, xs, ys, h, _ => by
    simp only [treeLevels, slots_map_isSome, h]
  | k + 1, xs, ys, h, hl => by
    have e : 2 ^ (k + 1) = 2 * 2 ^ k := by rw [pow_succ]; ring
    simp only [treeLevels, List.map_append, slots_map_isSome, h]
    congr 1
    rw [e, pairUp_slots sha3 xs _ (by omega), pairUp_slots sha3 ys _ (by omega)]
    exact treeLevels_pattern sha3 k _ _ (by rw [carryUp_length, carryUp_length, h])
      (by rw [carryUp_length]; omega)

set_option maxRecDepth 8000 in
/-- C11. For three transactions the slot above the lone third leaf holds the
leaf hash `L3` itself. With the stand-in hash `toySum256` and the digests 1, 2,
3 this differs from `hashMerkleBranches(L3, L3)`, the value the doc comment of
`CalcMerkleRoot` announces, and the root differs from the root that
self-hashing would give. -/
theorem lone_left_child_copied :
    (∀ (fl : Nat → Nat) (sha3 : List Byte → Hash) (t1 t2 t3 : Tx),
      ∃ store, buildMerkleTreeStore fl sha3 [t1, t2, t3] = .ok store ∧
        store[5]? = some (some (leafHash sha3 t3))) ∧
    leafHash toySum256 (sampleTx 3) ≠
      hashMerkleBranches toySum256 (leafHash toySum256 (sampleTx 3))
        (leafHash toySum256 (sampleTx 3)) ∧
    CalcMerkleRoot floorLog2 toySum256 [sampleTx 1, sampleTx 2, sampleTx 3] ≠
      .ok (hashMerkleBranches toySum256
        (hashMerkleBranches toySum256 (leafHash toySum256 (sampleTx 1))
          (leafHash toySum256 (sampleTx 2)))
        (hashMerkleBranches toySum256 (leafHash toySum256 (sampleTx 3))
          (leafHash toySum256 (sampleTx 3)))) := by
  refine ⟨?_, by decide, ?_⟩
  · intro fl sha3 t1 t2 t3
    refine ⟨_, buildMerkleTreeStore_spec fl sha3 [t1, t2, t3] 2 (by norm_num)
      (nextPowerOfTwo_three fl) (by simp), ?_⟩
    rfl
  · rw [CalcMerkleRoot_spec floorLog2 toySum256 [sampleTx 1, sampleTx 2, sampleTx 3] 2
      (by simp) (by norm_num) (nextPowerOfTwo_three _) (by simp) _ rfl]
    intro h
    exact absurd (Except.ok.inj h) (by decide)

/-- C12. For a list whose length is a power of two `P = 2^k` the store has
`2P - 1` slots, none absent, every slot `P + j` is `hashMerkleBranches` of the
slots `2j` and `2j + 1`, and the root returned by `CalcMerkleRoot` is the last
slot. For four transactions the store is `[h1, h2, h3, h4, h12, h34, root]`. -/
theorem power_of_two_store (fl : Nat → Nat) (sha3 : List Byte → Hash) (txs : List Tx)
    (k : Nat) (hk : k ≤ 62) (hlen : txs.length = 2 ^ k) :
    (∃ store, buildMerkleTreeStore fl sha3 txs = .ok store ∧
      store.length = 2 * 2 ^ k - 1 ∧
      (∀ i, i < store.length → ∃ h, store[i]? = some (some h)) ∧
      (∀ j, j + 1 < 2 ^ k → ∃ l r, store[2 * j]? = some (some l) ∧
        store[2 * j + 1]? = some (some r) ∧
        store[2 ^ k + j]? = some (some (hashMerkleBranches sha3 l r))) ∧
      ∃ root, store.getLast? = some (some root) ∧ CalcMerkleRoot fl sha3 txs = .ok root) ∧
    (∀ t1 t2 t3 t4 : Tx, buildMerkleTreeStore fl sha3 [t1, t2, t3, t4] =
      .ok [some (leafHash sha3 t1), some (leafHash sha3 t2), some (leafHash sha3 t3),
        some (leafHash sha3 t4),
        some (hashMerkleBranches sha3 (leafHash sha3 t1) (leafHash sha3 t2)),
        some (hashMerkleBranches sha3 (leafHash sha3 t3) (leafHash sha3 t4)),
        some (hashMerkleBranches sha3
          (hashMerkleBranches sha3 (leafHash sha3 t1) (leafHash sha3 t2))
          (hashMerkleBranches sha3 (leafHash sha3 t3) (leafHash sha3 t4)))]) := by
  have hP : nextPowerOfTwo fl txs.length = ((2 ^ k : Nat) : Int) := by
    rw [hlen]; exact nextPowerOfTwo_two_pow fl k hk
  have hpos : 0 < 2 ^ k := Nat.two_pow_pos k
  have hll := leafLevel_length sha3 txs (2 ^ k) (le_of_eq hlen)
  have hTlen := treeLevels_length sha3 k _ hll
  have hpres : ∀ y ∈ treeLevels sha3 k (leafLevel sha3 txs (2 ^ k)), y ≠ none := by
    apply treeLevels_present
    intro x hx
    simp only [leafLevel, hlen, Nat.sub_self, List.replicate_zero, List.append_nil,
      List.mem_map] at hx
    obtain ⟨t, _, rfl⟩ := hx
    simp
  have hget : ∀ (i : Nat) (a : Option Hash), (treeLevels sha3 k (leafLevel sha3 txs (2 ^ k)))[i]? = some a →
      ∃ h, a = some h := by
    intro i a hi
    have hmem : a ∈ treeLevels sha3 k (leafLevel sha3 txs (2 ^ k)) := by
      obtain ⟨hlt, he⟩ := List.getElem?_eq_some.mp hi
      rw [← he]
      exact List.getElem_mem hlt
    cases a with
    | none => exact absurd rfl (hpres _ hmem)
    | some h => exact ⟨h, rfl⟩
  refine ⟨⟨_, buildMerkleTreeStore_spec fl sha3 txs k hk hP (le_of_eq hlen), hTlen, ?_, ?_, ?_⟩, ?_⟩
  · intro i hi
    cases hh : (treeLevels sha3 k (leafLevel sha3 txs (2 ^ k)))[i]? with
    | none =>
      have := List.getElem?_eq_none_iff.mp hh
      omega
    | some a =>
      obtain ⟨h, rfl⟩ := hget i a hh
      exact ⟨h, rfl⟩
  · intro j hj
    obtain ⟨a, b, ha, hb, hp⟩ := treeLevels_parent sha3 k _ hll j hj
    obtain ⟨l, rfl⟩ := hget _ _ ha
    obtain ⟨r, rfl⟩ := hget _ _ hb
    exact ⟨l, r, ha, hb, hp⟩
  · obtain ⟨r, hr⟩ := iterate_carryUp_top sha3 k (txs.map (leafHash sha3))
      (by simp [hlen]) (by simp [hlen])
    refine ⟨r, ?_, CalcMerkleRoot_spec fl sha3 txs k (by omega) hk hP (le_of_eq hlen) r hr⟩
    rw [List.getLast?_eq_getElem?, hTlen, leafLevel_eq_slots]
    have e : 2 * 2 ^ k - 1 - 1 = 2 * 2 ^ k - 2 := by omega
    rw [e]
    exact treeLevels_last sha3 k _ r (by simp [hlen]) hr
  · intro t1 t2 t3 t4
    rw [buildMerkleTreeStore_spec fl sha3 [t1, t2, t3, t4] 2 (by norm_num)
      (nextPowerOfTwo_two_pow fl 2 (by norm_num)) (by simp)]
    rfl

theorem power_of_two_store_witness :
    ((2 : Nat) ≤ 62 ∧ [sampleTx 1, sampleTx 2, sampleTx 3, sampleTx 4].length = 2 ^ 2) ∧
    ((∃ store, buildMerkleTreeStore floorLog2 toySum256
        [sampleTx 1, sampleTx 2, sampleTx 3, sampleTx 4] = .ok store ∧
      store.length = 2 * 2 ^ 2 - 1 ∧
      (∀ i, i < store.length → ∃ h, store[i]? = some (some h)) ∧
      (∀ j, j + 1 < 2 ^ 2 → ∃ l r, store[2 * j]? = some (some l) ∧
        store[2 * j + 1]? = some (some r) ∧
        store[2 ^ 2 + j]? = some (some (hashMerkleBranches toySum256 l r))) ∧
      ∃ root, store.getLast? = some (some root) ∧
        CalcMerkleRoot floorLog2 toySum256
          [sampleTx 1, sampleTx 2, sampleTx 3, sampleTx 4] = .ok root) ∧
    (∀ t1 t2 t3 t4 : Tx, buildMerkleTreeStore floorLog2 toySum256 [t1, t2, t3, t4] =
      .ok [some (leafHash toySum256 t1), some (leafHash toySum256 t2),
        some (leafHash toySum256 t3), some (leafHash toySum256 t4),
        some (hashMerkleBranches toySum256 (leafHash toySum256 t1) (leafHash toySum256 t2)),
        some (hashMerkleBranches toySum256 (leafHash toySum256 t3) (leafHash toySum256 t4)),
        some (hashMerkleBranches toySum256
          (hashMerkleBranches toySum256 (leafHash toySum256 t1) (leafHash toySum256 t2))
          (hashMerkleBranches toySum256 (leafHash toySum256 t3) (leafHash toySum256 t4)))])) :=
  ⟨⟨by decide, by decide⟩,
    power_of_two_store floorLog2 toySum256 [sampleTx 1, sampleTx 2, sampleTx 3, sampleTx 4] 2
      (by decide) (by decide)⟩

/-- C13. For a non-empty list of length `count` (one for which
`nextPowerOfTwo` is correct) with `P = nextPowerOfTwo(count)`, the returned
store has `2P - 1` slots, slot `i` is `H(0x00 || digest[i])`, the leaf hash of
transaction `i`, for `i < count`, and slot `i` is absent for `count ≤ i < P`. -/
theorem leaf_level_of_store (fl : Nat → Nat) (sha3 : List Byte → Hash) (txs : List Tx)
    (hne : txs ≠ []) (h : PlannerExact fl txs.length) :
    ∃ (store : List (Option Hash)) (P : Nat),
      nextPowerOfTwo fl txs.length = (P : Int) ∧
      buildMerkleTreeStore fl sha3 txs = .ok store ∧
      store.length = 2 * P - 1 ∧
      (∀ i (hi : i < txs.length),
        store[i]? = some (some (sha3 (0x00 :: txs[i].WitnessHash.bytes))) ∧
        leafHash sha3 txs[i] = sha3 (0x00 :: txs[i].WitnessHash.bytes)) ∧
      (∀ i, txs.length ≤ i → i < P → store[i]? = some none) := by
  have hpos : 0 < txs.length := List.length_pos.mpr hne
  obtain ⟨k, hk, hlen, hP, _⟩ := plannerExact_pow fl txs.length hpos h
  have hll := leafLevel_length sha3 txs (2 ^ k) hlen
  refine ⟨_, 2 ^ k, hP, buildMerkleTreeStore_spec fl sha3 txs k hk hP hlen,
    treeLevels_length sha3 k _ hll, ?_, ?_⟩
  · intro i hi
    refine ⟨?_, rfl⟩
    rw [treeLevels_head sha3 k _ i (by omega), leafLevel_eq_slots,
      slots_getElem?_lt _ _ _ (by simpa using hi)]
    simp only [List.getElem_map]
    rfl
  · intro i hi hiP
    rw [treeLevels_head sha3 k _ i (by omega), leafLevel_eq_slots,
      slots_getElem?_ge _ _ _ (by simpa using hi) hiP]

theorem leaf_level_of_store_witness :
    ([sampleTx 1, sampleTx 2, sampleTx 3] ≠ [] ∧
      PlannerExact floorLog2 [sampleTx 1, sampleTx 2, sampleTx 3].length) ∧
    ∃ (store : List (Option Hash)) (P : Nat),
      nextPowerOfTwo floorLog2 [sampleTx 1, sampleTx 2, sampleTx 3].length = (P : Int) ∧
      buildMerkleTreeStore floorLog2 toySum256 [sampleTx 1, sampleTx 2, sampleTx 3] = .ok store ∧
      store.length = 2 * P - 1 ∧
      (∀ i (hi : i < [sampleTx 1, sampleTx 2, sampleTx 3].length),
        store[i]? = some (some (toySum256
          (0x00 :: [sampleTx 1, sampleTx 2, sampleTx 3][i].WitnessHash.bytes))) ∧
        leafHash toySum256 [sampleTx 1, sampleTx 2, sampleTx 3][i] =
          toySum256 (0x00 :: [sampleTx 1, sampleTx 2, sampleTx 3][i].WitnessHash.bytes)) ∧
      (∀ i, [sampleTx 1, sampleTx 2, sampleTx 3].length ≤ i → i < P → store[i]? = some none) :=
  ⟨⟨by decide, by decide⟩,
    leaf_level_of_store floorLog2 toySum256 [sampleTx 1, sampleTx 2, sampleTx 3]
      (by decide) (by decide)⟩

/-- C14. In the returned store of a non-empty list with padded size `P`, for
every `j` with `j + 1 < P` the slot `P + j` is: absent when slots `2j` and
`2j + 1` are both absent; the left slot itself when the right one is absent
and the left present; `H(0x01 || left || right)` when both are present. Both
children lie below the parent (`2j + 1 < P + j`). -/
theorem parent_slot_rule (fl : Nat → Nat) (sha3 : List Byte → Hash) (txs : List Tx)
    (hne : txs ≠ []) (h : PlannerExact fl txs.length) :
    ∃ (store : List (Option Hash)) (P : Nat),
      nextPowerOfTwo fl txs.length = (P : Int) ∧
      buildMerkleTreeStore fl sha3 txs = .ok store ∧
      ∀ j, j + 1 < P → 2 * j + 1 < P + j ∧
        ∃ left right parent, store[2 * j]? = some left ∧ store[2 * j + 1]? = some right ∧
          store[P + j]? = some parent ∧
          (left = none → right = none → parent = none) ∧
          (∀ l, left = some l → right = none → parent = some l) ∧
          (∀ l r, left = some l → right = some r →
            parent = some (sha3 (0x01 :: (l.bytes ++ r.bytes)))) := by
  have hpos : 0 < txs.length := List.length_pos.mpr hne
  obtain ⟨k, hk, hlen, hP, _⟩ := plannerExact_pow fl txs.length hpos h
  have hll := leafLevel_length sha3 txs (2 ^ k) hlen
  refine ⟨_, 2 ^ k, hP, buildMerkleTreeStore_spec fl sha3 txs k hk hP hlen, ?_⟩
  intro j hj
  obtain ⟨a, b, ha, hb, hp⟩ := treeLevels_parent sha3 k _ hll j hj
  refine ⟨by omega, a, b, _, ha, hb, hp, ?_, ?_, ?_⟩
  · intro h1 h2; subst h1; rfl
  · intro l h1 h2; subst h1; subst h2; rfl
  · intro l r h1 h2; subst h1; subst h2; rfl

theorem parent_slot_rule_witness :
    ([sampleTx 1, sampleTx 2, sampleTx 3] ≠ [] ∧
      PlannerExact floorLog2 [sampleTx 1, sampleTx 2, sampleTx 3].length) ∧
    ∃ (store : List (Option Hash)) (P : Nat),
      nextPowerOfTwo floorLog2 [sampleTx 1, sampleTx 2, sampleTx 3].length = (P : Int) ∧
      buildMerkleTreeStore floorLog2 toySum256 [sampleTx 1, sampleTx 2, sampleTx 3] = .ok store ∧
      ∀ j, j + 1 < P → 2 * j + 1 < P + j ∧
        ∃ left right parent, store[2 * j]? = some left ∧ store[2 * j + 1]? = some right ∧
          store[P + j]? = some parent ∧
          (left = none → right = none → parent = none) ∧
          (∀ l, left = some l → right = none → parent = some l) ∧
          (∀ l r, left = some l → right = some r →
            parent = some (toySum256 (0x01 :: (l.bytes ++ r.bytes)))) :=
  ⟨⟨by decide, by decide⟩,
    parent_slot_rule floorLog2 toySum256 [sampleTx 1, sampleTx 2, sampleTx 3]
      (by decide) (by decide)⟩

/-- C15. In the returned store of a non-empty list, for every `j` with
`j + 1 < P` the slot `P + j` is absent exactly when slots `2j` and `2j + 1`
are both absent, and the pair never has an absent left slot with a present
right slot. -/
theorem parent_absent_iff (fl : Nat → Nat) (sha3 : List Byte → Hash) (txs : List Tx)
    (hne : txs ≠ []) (h : PlannerExact fl txs.length) :
    ∃ (store : List (Option Hash)) (P : Nat),
      nextPowerOfTwo fl txs.length = (P : Int) ∧
      buildMerkleTreeStore fl sha3 txs = .ok store ∧
      ∀ j, j + 1 < P →
        ∃ left right parent, store[2 * j]? = some left ∧ store[2 * j + 1]? = some right ∧
          store[P + j]? = some parent ∧
          (parent = none ↔ left = none ∧ right = none) ∧
          ¬ (left = none ∧ right ≠ none) := by
  have hpos : 0 < txs.length := List.length_pos.mpr hne
  obtain ⟨k, hk, hlen, hP, _⟩ := plannerExact_pow fl txs.length hpos h
  have hll := leafLevel_length sha3 txs (2 ^ k) hlen
  refine ⟨_, 2 ^ k, hP, buildMerkleTreeStore_spec fl sha3 txs k hk hP hlen, ?_⟩
  intro j hj
  obtain ⟨a, b, ha, hb, hp⟩ := treeLevels_parent sha3 k _ hll j hj
  have hla : a = none → b = none := by
    intro ha0
    subst ha0
    rw [leafLevel_eq_slots] at ha hb
    exact treeLevels_left_absent sha3 k _ (by simpa using hlen) j b ha hb
  refine ⟨a, b, _, ha, hb, hp, ?_, ?_⟩
  · constructor
    · intro hpn
      cases a with
      | none => exact ⟨rfl, hla rfl⟩
      | some l => cases b <;> simp [parentOf] at hpn
    · rintro ⟨h1, _⟩
      subst h1; rfl
  · rintro ⟨h1, h2⟩
    exact h2 (hla h1)

theorem parent_absent_iff_witness :
    ([sampleTx 1, sampleTx 2, sampleTx 3] ≠ [] ∧
      PlannerExact floorLog2 [sampleTx 1, sampleTx 2, sampleTx 3].length) ∧
    ∃ (store : List (Option Hash)) (P : Nat),
      nextPowerOfTwo floorLog2 [sampleTx 1, sampleTx 2, sampleTx 3].length = (P : Int) ∧
      buildMerkleTreeStore floorLog2 toySum256 [sampleTx 1, sampleTx 2, sampleTx 3] = .ok store ∧
      ∀ j, j + 1 < P →
        ∃ left right parent, store[2 * j]? = some left ∧ store[2 * j + 1]? = some right ∧
          store[P + j]? = some parent ∧
          (parent = none ↔ left = none ∧ right = none) ∧
          ¬ (left = none ∧ right ≠ none) :=
  ⟨⟨by decide, by decide⟩,
    parent_absent_iff floorLog2 toySum256 [sampleTx 1, sampleTx 2, sampleTx 3]
      (by decide) (by decide)⟩

theorem levelWidth_two_pow (k l : Nat) (h : l ≤ k) : levelWidth (2 ^ k) l = 2 ^ (k - l) := by
  unfold levelWidth
  exact Nat.pow_div h (by norm_num)

theorem levelStart_two_pow (k l : Nat) (h : l ≤ k) :
    levelStart (2 ^ k) l = 2 * 2 ^ k - 2 * 2 ^ (k - l) := by
  unfold levelStart
  have e : 2 * 2 ^ k = 2 ^ (k + 1) := by rw [pow_succ]; ring
  have e' : 2 * 2 ^ (k - l) = 2 ^ (k + 1 - l) := by
    have : k + 1 - l = (k - l) + 1 := by omega
    rw [this, pow_succ]; ring
  rw [e', e, Nat.pow_div (by omega) (by norm_num)]

/-- C16. With `P = 2^k`, level `l` of the returned store occupies the `P/2^l`
indices from `s_l = 2P - 2P/2^l` and holds the leaves paired up `l` times;
level `l + 1` has half the width and starts right after level `l`; the last
level is the single slot `2P - 2`; and the slot `s_(l+1) + j` is written by
the loop iteration whose inputs are the slots `s_l + 2j` and `s_l + 2j + 1`,
both inside level `l`. -/
theorem levels_respected (fl : Nat → Nat) (sha3 : List Byte → Hash) (txs : List Tx)
    (hne : txs ≠ []) (h : PlannerExact fl txs.length) :
    ∃ (store : List (Option Hash)) (k : Nat),
      nextPowerOfTwo fl txs.length = ((2 ^ k : Nat) : Int) ∧
      buildMerkleTreeStore fl sha3 txs = .ok store ∧
      store.length = 2 * 2 ^ k - 1 ∧
      (∀ l, l ≤ k → levelStart (2 ^ k) l + levelWidth (2 ^ k) l ≤ store.length ∧
        ∀ j, j < levelWidth (2 ^ k) l →
          store[levelStart (2 ^ k) l + j]? =
            ((pairUp sha3)^[l] (leafLevel sha3 txs (2 ^ k)))[j]?) ∧
      (∀ l, l < k → 2 * levelWidth (2 ^ k) (l + 1) = levelWidth (2 ^ k) l ∧
        levelStart (2 ^ k) (l + 1) = levelStart (2 ^ k) l + levelWidth (2 ^ k) l) ∧
      (levelStart (2 ^ k) 0 = 0 ∧ levelStart (2 ^ k) k = 2 * 2 ^ k - 2 ∧
        levelWidth (2 ^ k) k = 1) ∧
      (∀ l, l < k → ∀ j, j < levelWidth (2 ^ k) (l + 1) →
        ∃ m, m + 1 < 2 ^ k ∧ 2 * m = levelStart (2 ^ k) l + 2 * j ∧
          2 ^ k + m = levelStart (2 ^ k) (l + 1) + j ∧
          2 * j + 1 < levelWidth (2 ^ k) l ∧
          ∃ a b, store[levelStart (2 ^ k) l + 2 * j]? = some a ∧
            store[levelStart (2 ^ k) l + 2 * j + 1]? = some b ∧
            store[levelStart (2 ^ k) (l + 1) + j]? = some (parentOf sha3 a b)) := by
  have hpos : 0 < txs.length := List.length_pos.mpr hne
  obtain ⟨k, hk, hlen, hP, _⟩ := plannerExact_pow fl txs.length hpos h
  have hll := leafLevel_length sha3 txs (2 ^ k) hlen
  have hTlen := treeLevels_length sha3 k _ hll
  have hhalf : ∀ l, l < k → 2 * 2 ^ (k - (l + 1)) = 2 ^ (k - l) := by
    intro l hl
    have : k - l = (k - (l + 1)) + 1 := by omega
    rw [this, pow_succ]; ring
  have hwle : ∀ l, l ≤ k → 2 ^ (k - l) ≤ 2 ^ k := fun l _ =>
    Nat.pow_le_pow_right (by norm_num) (by omega)
  have hwpos : ∀ l, 0 < 2 ^ (k - l) := fun l => Nat.two_pow_pos _
  refine ⟨_, k, hP, buildMerkleTreeStore_spec fl sha3 txs k hk hP hlen, hTlen, ?_, ?_, ?_, ?_⟩
  · intro l hl
    rw [levelStart_two_pow k l hl, levelWidth_two_pow k l hl, hTlen]
    have := hwle l hl
    have := hwpos l
    refine ⟨by omega, ?_⟩
    intro j hj
    exact treeLevels_level sha3 l k _ hl hll j hj
  · intro l hl
    rw [levelStart_two_pow k l (by omega), levelStart_two_pow k (l + 1) (by omega),
      levelWidth_two_pow k l (by omega), levelWidth_two_pow k (l + 1) (by omega)]
    have := hhalf l hl
    have := hwle l (by omega)
    exact ⟨by omega, by omega⟩
  · rw [levelStart_two_pow k 0 (by omega), levelStart_two_pow k k le_rfl,
      levelWidth_two_pow k k le_rfl]
    simp
  · intro l hl j hj
    rw [levelStart_two_pow k l (by omega), levelStart_two_pow k (l + 1) (by omega),
      levelWidth_two_pow k l (by omega)]
    rw [levelWidth_two_pow k (l + 1) (by omega)] at hj
    have h1 := hhalf l hl
    have h2 := hwle l (by omega)
    have h3 := hwpos (l + 1)
    have hm : 2 ^ k - 2 ^ (k - l) + j + 1 < 2 ^ k := by omega
    obtain ⟨a, b, ha, hb, hp⟩ := treeLevels_parent sha3 k _ hll (2 ^ k - 2 ^ (k - l) + j) hm
    have e1 : 2 * (2 ^ k - 2 ^ (k - l) + j) = 2 * 2 ^ k - 2 * 2 ^ (k - l) + 2 * j := by omega
    have e2 : 2 ^ k + (2 ^ k - 2 ^ (k - l) + j) = 2 * 2 ^ k - 2 * 2 ^ (k - (l + 1)) + j := by
      omega
    rw [e1] at ha hb
    rw [e2] at hp
    exact ⟨2 ^ k - 2 ^ (k - l) + j, hm, e1, e2, by omega, a, b, ha, hb, hp⟩

theorem levels_respected_witness :
    ([sampleTx 1, sampleTx 2, sampleTx 3] ≠ [] ∧
      PlannerExact floorLog2 [sampleTx 1, sampleTx 2, sampleTx 3].length) ∧
    ∃ (store : List (Option Hash)) (k : Nat),
      nextPowerOfTwo floorLog2 [sampleTx 1, sampleTx 2, sampleTx 3].length =
        ((2 ^ k : Nat) : Int) ∧
      buildMerkleTreeStore floorLog2 toySum256 [sampleTx 1, sampleTx 2, sampleTx 3] = .ok store ∧
      store.length = 2 * 2 ^ k - 1 ∧
      (∀ l, l ≤ k → levelStart (2 ^ k) l + levelWidth (2 ^ k) l ≤ store.length ∧
        ∀ j, j < levelWidth (2 ^ k) l →
          store[levelStart (2 ^ k) l + j]? =
            ((pairUp toySum256)^[l]
              (leafLevel toySum256 [sampleTx 1, sampleTx 2, sampleTx 3] (2 ^ k)))[j]?) ∧
      (∀ l, l < k → 2 * levelWidth (2 ^ k) (l + 1) = levelWidth (2 ^ k) l ∧
        levelStart (2 ^ k) (l + 1) = levelStart (2 ^ k) l + levelWidth (2 ^ k) l) ∧
      (levelStart (2 ^ k) 0 = 0 ∧ levelStart (2 ^ k) k = 2 * 2 ^ k - 2 ∧
        levelWidth (2 ^ k) k = 1) ∧
      (∀ l, l < k → ∀ j, j < levelWidth (2 ^ k) (l + 1) →
        ∃ m, m + 1 < 2 ^ k ∧ 2 * m = levelStart (2 ^ k) l + 2 * j ∧
          2 ^ k + m = levelStart (2 ^ k) (l + 1) + j ∧
          2 * j + 1 < levelWidth (2 ^ k) l ∧
          ∃ a b, store[levelStart (2 ^ k) l + 2 * j]? = some a ∧
            store[levelStart (2 ^ k) l + 2 * j + 1]? = some b ∧
            store[levelStart (2 ^ k) (l + 1) + j]? = some (parentOf toySum256 a b)) :=
  ⟨⟨by decide, by decide⟩,
    levels_respected floorLog2 toySum256 [sampleTx 1, sampleTx 2, sampleTx 3]
      (by decide) (by decide)⟩

/-- C17, counterexample. `buildMerkleTreeStore` on the empty list returns no
store: it stops in `make` with a negative length. -/
theorem builder_empty_panics :
    buildMerkleTreeStore floorLog2 toySum256 [] = .error .makesliceLenOutOfRange ∧
    ¬ ∃ store, buildMerkleTreeStore floorLog2 toySum256 [] = .ok store := by
  have h : buildMerkleTreeStore floorLog2 toySum256 [] = .error .makesliceLenOutOfRange := by
    unfold buildMerkleTreeStore
    have h0 : nextPowerOfTwo floorLog2 ([] : List Tx).length = 0 := rfl
    have hw : wrapInt (wrapInt (0 * 2) - 1) = -1 := by decide
    simp only [h0, hw]
    rfl
  refine ⟨h, ?_⟩
  rintro ⟨store, hs⟩
  rw [h] at hs
  cases hs

/-- C17, amended. On the empty list `buildMerkleTreeStore` does compute
`nextPoT = 0` and `arraySize = 0*2 - 1 = -1` and then panics in `make`; the
empty list is short-circuited one level up, in `CalcMerkleRoot`, which returns
the zero hash. -/
theorem empty_list_guard (fl : Nat → Nat) (sha3 : List Byte → Hash) :
    nextPowerOfTwo fl ([] : List Tx).length = 0 ∧
    wrapInt (wrapInt (nextPowerOfTwo fl ([] : List Tx).length * 2) - 1) = -1 ∧
    buildMerkleTreeStore fl sha3 [] = .error .makesliceLenOutOfRange ∧
    CalcMerkleRoot fl sha3 [] = .ok zeroHash := by
  have h0 : nextPowerOfTwo fl ([] : List Tx).length = 0 := rfl
  have hw : wrapInt (wrapInt (0 * 2) - 1) = -1 := by decide
  refine ⟨h0, by rw [h0]; exact hw, ?_, rfl⟩
  unfold buildMerkleTreeStore
  simp only [h0, hw]
  rfl

/-- C18. `CalcMerkleRoot` of a non-empty list (of a length for which
`nextPowerOfTwo` is correct) is the recursive merkle tree hash `MTH` of its
digests, where `MTH [d] = H(0x00 || d)` and, for a list `L` of length
`n ≥ 2`, `MTH L = H(0x01 || MTH(L[0:k]) || MTH(L[k:n]))` with `k` the largest
power of two strictly smaller than `n`. -/
theorem calcMerkleRoot_eq_recursive (fl : Nat → Nat) (sha3 : List Byte → Hash)
    (txs : List Tx) (hne : txs ≠ []) (h : PlannerExact fl txs.length) :
    CalcMerkleRoot fl sha3 txs = .ok (MTH sha3 (txs.map Tx.WitnessHash)) ∧
    (∀ d : Hash, MTH sha3 [d] = sha3 (0x00 :: d.bytes)) ∧
    (∀ L : List Hash, 2 ≤ L.length →
      (∃ e, largestPowerOfTwoBelow L.length = 2 ^ e) ∧
      largestPowerOfTwoBelow L.length < L.length ∧
      L.length ≤ 2 * largestPowerOfTwoBelow L.length ∧
      MTH sha3 L =
        sha3 (0x01 :: ((MTH sha3 (L.take (largestPowerOfTwoBelow L.length))).bytes ++
          (MTH sha3 (L.drop (largestPowerOfTwoBelow L.length))).bytes))) := by
  have hpos : 0 < txs.length := List.length_pos.mpr hne
  obtain ⟨k, hk, hlen, hP, _⟩ := plannerExact_pow fl txs.length hpos h
  refine ⟨CalcMerkleRoot_eq_MTH fl sha3 txs k hpos hk hP hlen, MTH_singleton sha3, ?_⟩
  intro L hL
  refine ⟨⟨_, rfl⟩, largestPowerOfTwoBelow_lt _ hL, ?_, MTH_split sha3 L hL⟩
  unfold largestPowerOfTwoBelow
  rw [floorLog2_eq]
  have := Nat.lt_pow_succ_log_self (b := 2) (by norm_num) (L.length - 1)
  rw [Nat.succ_eq_add_one, pow_succ] at this
  omega

theorem calcMerkleRoot_eq_recursive_witness :
    ([sampleTx 1, sampleTx 2, sampleTx 3] ≠ [] ∧
      PlannerExact floorLog2 [sampleTx 1, sampleTx 2, sampleTx 3].length) ∧
    (CalcMerkleRoot floorLog2 toySum256 [sampleTx 1, sampleTx 2, sampleTx 3] =
      .ok (MTH toySum256 ([sampleTx 1, sampleTx 2, sampleTx 3].map Tx.WitnessHash)) ∧
    (∀ d : Hash, MTH toySum256 [d] = toySum256 (0x00 :: d.bytes)) ∧
    (∀ L : List Hash, 2 ≤ L.length →
      (∃ e, largestPowerOfTwoBelow L.length = 2 ^ e) ∧
      largestPowerOfTwoBelow L.length < L.length ∧
      L.length ≤ 2 * largestPowerOfTwoBelow L.length ∧
      MTH toySum256 L =
        toySum256 (0x01 :: ((MTH toySum256 (L.take (largestPowerOfTwoBelow L.length))).bytes ++
          (MTH toySum256 (L.drop (largestPowerOfTwoBelow L.length))).bytes)))) :=
  ⟨⟨by decide, by decide⟩,
    calcMerkleRoot_eq_recursive floorLog2 toySum256 [sampleTx 1, sampleTx 2, sampleTx 3]
      (by decide) (by decide)⟩

/-- C19. The root commits to the length as well as to the contents: if two
non-empty lists, possibly of different lengths (each of a length for which
`nextPowerOfTwo` is correct), have the same root, then either they are the same
list, or two distinct byte strings, one handed to `sha3` in each computation,
have the same hash. -/
theorem root_commits_to_length (fl : Nat → Nat) (sha3 : List Byte → Hash) (A B : List Tx)
    (hA0 : A ≠ []) (hB0 : B ≠ [])
    (hA : PlannerExact fl A.length) (hB : PlannerExact fl B.length)
    (hroot : CalcMerkleRoot fl sha3 A = CalcMerkleRoot fl sha3 B) :
    A = B ∨ ∃ x ∈ sha3Inputs fl sha3 A, ∃ y ∈ sha3Inputs fl sha3 B,
      x ≠ y ∧ sha3 x = sha3 y :=
  root_eq_cases fl sha3 A B (List.length_pos.mpr hA0) (List.length_pos.mpr hB0) hA hB hroot


theorem root_commits_to_length_witness :
    ([sampleTx 1] ≠ [] ∧ [sampleTx 1, sampleTx 1] ≠ [] ∧
      PlannerExact floorLog2 [sampleTx 1].length ∧
      PlannerExact floorLog2 [sampleTx 1, sampleTx 1].length ∧
      CalcMerkleRoot floorLog2 constSum256 [sampleTx 1] =
        CalcMerkleRoot floorLog2 constSum256 [sampleTx 1, sampleTx 1]) ∧
    ([sampleTx 1] = [sampleTx 1, sampleTx 1] ∨
      ∃ x ∈ sha3Inputs floorLog2 constSum256 [sampleTx 1],
        ∃ y ∈ sha3Inputs floorLog2 constSum256 [sampleTx 1, sampleTx 1],
          x ≠ y ∧ constSum256 x = constSum256 y) :=
  have hroot : CalcMerkleRoot floorLog2 constSum256 [sampleTx 1] =
      CalcMerkleRoot floorLog2 constSum256 [sampleTx 1, sampleTx 1] :=
    (CalcMerkleRoot_spec floorLog2 constSum256 [sampleTx 1] 0 (by decide) (by decide)
      (by decide) (by decide) zeroHash rfl).trans
    (CalcMerkleRoot_spec floorLog2 constSum256 [sampleTx 1, sampleTx 1] 1 (by decide)
      (by decide) (by decide) (by decide) zeroHash rfl).symm
  ⟨⟨by decide, by decide, by decide, by decide, hroot⟩,
    root_commits_to_length floorLog2 constSum256 [sampleTx 1] [sampleTx 1, sampleTx 1]
      (by decide) (by decide) (by decide) (by decide) hroot⟩

/-- C20. In the store of a non-empty list `A` of length `count` with
`P = 2^k`, the slot `j` of level `l` is present exactly when
`j < ceil(count / 2^l)` and is otherwise an absent slot; and a second list `B`
of the same length yields a store with the same present/absent pattern. -/
theorem presence_pattern (fl : Nat → Nat) (sha3 : List Byte → Hash) (A B : List Tx)
    (hne : A ≠ []) (hlen : A.length = B.length) (h : PlannerExact fl A.length) :
    ∃ (storeA storeB : List (Option Hash)) (k : Nat),
      nextPowerOfTwo fl A.length = ((2 ^ k : Nat) : Int) ∧
      buildMerkleTreeStore fl sha3 A = .ok storeA ∧
      buildMerkleTreeStore fl sha3 B = .ok storeB ∧
      (∀ l, l ≤ k → ∀ j, j < levelWidth (2 ^ k) l →
        ((∃ x, storeA[levelStart (2 ^ k) l + j]? = some (some x)) ↔
          j < (A.length + 2 ^ l - 1) / 2 ^ l) ∧
        (storeA[levelStart (2 ^ k) l + j]? = some none ↔
          (A.length + 2 ^ l - 1) / 2 ^ l ≤ j)) ∧
      storeA.map Option.isSome = storeB.map Option.isSome := by
  have hpos : 0 < A.length := List.length_pos.mpr hne
  obtain ⟨k, hk, hl, hP, _⟩ := plannerExact_pow fl A.length hpos h
  have hll := leafLevel_length sha3 A (2 ^ k) hl
  refine ⟨_, _, k, hP, buildMerkleTreeStore_spec fl sha3 A k hk hP hl,
    buildMerkleTreeStore_spec fl sha3 B k hk (by rw [← hlen]; exact hP) (by omega), ?_, ?_⟩
  · intro l hlk j hj
    rw [levelWidth_two_pow k l hlk] at hj
    rw [levelStart_two_pow k l hlk, treeLevels_level sha3 l k _ hlk hll j hj,
      leafLevel_eq_slots, iterate_pairUp_slots sha3 l k _ hlk (by simpa using hl)]
    have hcl := iterate_carryUp_length sha3 l (A.map (leafHash sha3))
    rw [List.length_map] at hcl
    by_cases hc : j < ((carryUp sha3)^[l] (A.map (leafHash sha3))).length
    · rw [slots_getElem?_lt _ _ _ hc]
      rw [hcl] at hc
      constructor
      · exact ⟨fun _ => hc, fun _ => ⟨_, rfl⟩⟩
      · constructor
        · intro hx; simp at hx
        · intro hx; omega
    · rw [slots_getElem?_ge _ _ _ (by omega) hj]
      rw [hcl] at hc
      constructor
      · constructor
        · rintro ⟨x, hx⟩; simp at hx
        · intro hx; omega
      · exact ⟨fun _ => by omega, fun _ => rfl⟩
  · rw [leafLevel_eq_slots, leafLevel_eq_slots]
    exact treeLevels_pattern sha3 k _ _ (by simp [hlen]) (by simp; omega)

theorem presence_pattern_witness :
    ([sampleTx 1, sampleTx 2, sampleTx 3] ≠ [] ∧
      [sampleTx 1, sampleTx 2, sampleTx 3].length = [sampleTx 4, sampleTx 5, sampleTx 6].length ∧
      PlannerExact floorLog2 [sampleTx 1, sampleTx 2, sampleTx 3].length) ∧
    ∃ (storeA storeB : List (Option Hash)) (k : Nat),
      nextPowerOfTwo floorLog2 [sampleTx 1, sampleTx 2, sampleTx 3].length =
        ((2 ^ k : Nat) : Int) ∧
      buildMerkleTreeStore floorLog2 toySum256 [sampleTx 1, sampleTx 2, sampleTx 3] =
        .ok storeA ∧
      buildMerkleTreeStore floorLog2 toySum256 [sampleTx 4, sampleTx 5, sampleTx 6] =
        .ok storeB ∧
      (∀ l, l ≤ k → ∀ j, j < levelWidth (2 ^ k) l →
        ((∃ x, storeA[levelStart (2 ^ k) l + j]? = some (some x)) ↔
          j < ([sampleTx 1, sampleTx 2, sampleTx 3].length + 2 ^ l - 1) / 2 ^ l) ∧
        (storeA[levelStart (2 ^ k) l + j]? = some none ↔
          ([sampleTx 1, sampleTx 2, sampleTx 3].length + 2 ^ l - 1) / 2 ^ l ≤ j)) ∧
      storeA.map Option.isSome = storeB.map Option.isSome :=
  ⟨⟨by decide, by decide, by decide⟩,
    presence_pattern floorLog2 toySum256 [sampleTx 1, sampleTx 2, sampleTx 3]
      [sampleTx 4, sampleTx 5, sampleTx 6] (by decide) (by decide) (by decide)⟩

end Merkle
